import Mathlib

/-!
Verification development for the DocChat ingestion pipeline (Node/Express
backend plus React client).  JavaScript strings are modelled as `List Char`;
every fallible JavaScript function is modelled as an `Option`/`Except`
returning Lean function; remote services (HTTP fetch, headless browser,
embedding provider, vector store) are modelled as explicit environments of
oracle functions.  All recursive definitions use structural (fuel) recursion
so that they evaluate on concrete inputs inside the kernel.
-/

namespace DocChat

/-- JavaScript strings are sequences of characters. -/
abbrev Str := List Char

/-- Model of String.prototype.trim: drop leading and trailing whitespace. -/
def trim (s : Str) : Str :=
  ((s.dropWhile Char.isWhitespace).reverse.dropWhile Char.isWhitespace).reverse

/-- Fuel-driven worker for `collapseWs`; each step consumes at least one
character, so fuel equal to the length of the string suffices. -/
def collapseWsGo : Nat → Str → Str
  | 0, s => s
  | _, [] => []
  | fuel + 1, c :: rest =>
    if c.isWhitespace then ' ' :: collapseWsGo fuel (rest.dropWhile Char.isWhitespace)
    else c :: collapseWsGo fuel rest

/-- Model of the regex replacement replace(\s+, one space): every maximal run
of whitespace becomes a single space. -/
def collapseWs (s : Str) : Str := collapseWsGo s.length s

/-- Split a string at the first occurrence of a separator character; the
second component is `none` when the separator does not occur. -/
def splitFirst (sep : Char) : Str → Str × Option Str
  | [] => ([], none)
  | c :: rest =>
    if c = sep then ([], some rest)
    else
      let r := splitFirst sep rest
      (c :: r.1, r.2)

/-- Fuel-driven worker for `splitAll`. -/
def splitAllGo (sep : Char) : Nat → Str → List Str
  | 0, s => [s]
  | fuel + 1, s =>
    match splitFirst sep s with
    | (a, none) => [a]
    | (a, some rest) => a :: splitAllGo sep fuel rest

/-- Model of String.prototype.split on a single-character separator (empty
pieces are kept, as in JavaScript). -/
def splitAll (sep : Char) (s : Str) : List Str := splitAllGo sep s.length s

/-- Join pieces with a single-character separator (model of Array.join). -/
def joinSep (sep : Char) : List Str → Str
  | [] => []
  | [p] => p
  | p :: q :: rest => p ++ sep :: joinSep sep (q :: rest)

/- ## Model of the WHATWG URL platform class

The source (api/src/utilities.js and the web client) relies on the runtime's
`new URL(...)` parser.  We model it as a simplified parser into components:
scheme, host (authority, port included verbatim), path, decoded query pairs
and fragment.  Not modelled: percent-encoding normalization, dot-segment
removal, default-port elision and ASCII case folding of scheme/host during
serialization (the scheme comparison in `isHttpUrl` is case-insensitive, as
`u.protocol` comparison is in JavaScript). -/

/-- Scheme characters after the first (letters, digits, plus, minus, dot). -/
def isSchemeChar (c : Char) : Bool :=
  c.isAlpha || c.isDigit || c = '+' || c = '-' || c = '.'

/-- A valid scheme is a letter followed by scheme characters. -/
def validScheme : Str → Bool
  | [] => false
  | c :: rest => c.isAlpha && rest.all isSchemeChar

/-- A host must be non-empty and contain no whitespace. -/
def validHost (h : Str) : Bool :=
  !h.isEmpty && h.all (fun c => !c.isWhitespace)

/-- Components of a parsed URL. -/
@[ext]
structure URLParts where
  scheme : Str
  host : Str
  path : Str
  query : List (Str × Str)
  frag : Option Str
deriving DecidableEq, Repr

/-- One application/x-www-form-urlencoded piece: key is everything before
the first equals sign, value the rest (empty when absent). -/
def parseQueryPiece (piece : Str) : Str × Str :=
  match splitFirst '=' piece with
  | (k, none) => (k, [])
  | (k, some v) => (k, v)

/-- Parse a query string into key/value pairs; empty pieces are skipped, as
URLSearchParams does. -/
def parseQuery (qs : Str) : List (Str × Str) :=
  ((splitAll '&' qs).filter (fun p => !p.isEmpty)).map parseQueryPiece

/-- Strip a leading double slash, failing when it is absent. -/
def dropSlashSlash : Str → Option Str
  | '/' :: '/' :: rest => some rest
  | _ => none

/-- Parse an absolute URL of the shape scheme://host/path?query#frag.
Returns none when the input has no scheme-colon, an invalid scheme, no
double slash, or an invalid host — the model of `new URL(x)` throwing. -/
def parseURL (s : Str) : Option URLParts :=
  let h1 := splitFirst '#' s
  let h2 := splitFirst '?' h1.1
  match splitFirst ':' h2.1 with
  | (_, none) => none
  | (schemeRaw, some rest) =>
    if validScheme schemeRaw then
      match dropSlashSlash rest with
      | none => none
      | some hostPath =>
        let h3 := splitFirst '/' hostPath
        if validHost h3.1 then
          some { scheme := schemeRaw
                 host := h3.1
                 path := match h3.2 with
                   | none => ['/']
                   | some p => '/' :: p
                 query := match h2.2 with
                   | none => []
                   | some qs => parseQuery qs
                 frag := h1.2 }
        else none
    else none

/-- Serialize query pairs: key=value joined with ampersands. -/
def serializeQuery (q : List (Str × Str)) : Str :=
  joinSep '&' (q.map (fun kv => kv.1 ++ '=' :: kv.2))

/-- Serialize URL components back to a string (model of url.toString()). -/
def serializeURL (u : URLParts) : Str :=
  u.scheme ++ ':' :: '/' :: '/' :: (u.host ++ u.path
    ++ (if u.query.isEmpty then [] else '?' :: serializeQuery u.query)
    ++ (match u.frag with | none => [] | some f => '#' :: f))

/-- Well-formedness of URL components, satisfied by every parser output:
the character-set constraints that make serialization re-parsable. -/
def WFURL (u : URLParts) : Prop :=
  validScheme u.scheme = true ∧ validHost u.host = true ∧
  (∀ c ∈ u.host, c ≠ '/' ∧ c ≠ '?' ∧ c ≠ '#') ∧
  (∃ p, u.path = '/' :: p) ∧ (∀ c ∈ u.path, c ≠ '?' ∧ c ≠ '#') ∧
  (∀ kv ∈ u.query,
    ('=' ∉ kv.1 ∧ '&' ∉ kv.1 ∧ '#' ∉ kv.1) ∧ ('&' ∉ kv.2 ∧ '#' ∉ kv.2))

/- ## api/src/utilities.js: isHttpUrl, DEFAULT_STRIP_PARAMS, cleanUrl -/

/-- The default tracking parameters stripped by cleanUrl
(utilities.js, DEFAULT_STRIP_PARAMS). -/
def DEFAULT_STRIP_PARAMS : List Str :=
  ["utm_source".data, "utm_medium".data, "utm_campaign".data,
   "utm_term".data, "utm_content".data, "gclid".data, "fbclid".data]

/-- Delete every query pair whose key is in the strip set (the loop over
url.searchParams.keys() with searchParams.delete). -/
def stripQuery (strip : List Str) (q : List (Str × Str)) : List (Str × Str) :=
  q.filter (fun kv => decide (kv.1 ∉ strip))

/-- Replace a trailing run of slashes by a single slash
(the replace with regex slash-plus-end in cleanUrl). -/
def collapseTrailing (p : Str) : Str :=
  (p.reverse.dropWhile (fun c => c == '/')).reverse ++ ['/']

/-- Model of the pathname update in cleanUrl: only directory-style paths
other than the root have their trailing slashes collapsed. -/
def cleanPath (p : Str) : Str :=
  if p ≠ ['/'] ∧ p.getLast? = some '/' then collapseTrailing p else p

/-- The effect of cleanUrl on parsed components: drop the fragment, strip
the tracking parameters, collapse the trailing slashes. -/
def cleanUrlCore (strip : List Str) (u : URLParts) : URLParts :=
  { scheme := u.scheme, host := u.host, path := cleanPath u.path,
    query := stripQuery strip u.query, frag := none }

/-- Model of cleanUrl (utilities.js) with an explicit strip set; returns
none when `new URL(u)` throws. -/
def cleanUrlWith (strip : List Str) (s : Str) : Option Str :=
  (parseURL s).map (fun u => serializeURL (cleanUrlCore strip u))

/-- Model of cleanUrl with its default strip set. -/
def cleanUrl (s : Str) : Option Str := cleanUrlWith DEFAULT_STRIP_PARAMS s

/-- ASCII lower-casing of one character. -/
def lowChar (c : Char) : Char :=
  if 'A' ≤ c ∧ c ≤ 'Z' then Char.ofNat (c.toNat + 32) else c

/-- ASCII lower-casing of a string. -/
def lowerStr (s : Str) : Str := s.map lowChar

/-- Model of isHttpUrl (utilities.js): the input parses as an absolute URL
and its protocol is http or https (protocol comparison in JavaScript is on
the normalized, lower-cased scheme). -/
def isHttpUrl (s : Str) : Bool :=
  match parseURL s with
  | some u => lowerStr u.scheme == "http".data || lowerStr u.scheme == "https".data
  | none => false

/-- The error raised when an address is rejected. -/
inductive AddrError
  | invalidAddress
deriving DecidableEq, Repr

/-- The address-normalization composite used at every call site of the
repository (scraper.js scrapeText, routes/scrape.js, routes/crawl.js): the
isHttpUrl guard rejects the input, otherwise cleanUrl canonicalizes it. -/
def normalizeAddress (s : Str) : Except AddrError Str :=
  if isHttpUrl s then
    match cleanUrl s with
    | some out => Except.ok out
    | none => Except.error AddrError.invalidAddress
  else Except.error AddrError.invalidAddress

/- ## api/src/utilities.js cleanText: HTML to flat text -/

/-- Case-insensitive match of a pattern at the start of a string. -/
def matchesAtCI (pat s : Str) : Bool :=
  lowerStr (s.take pat.length) == lowerStr pat

/-- Index of the first case-insensitive occurrence of a pattern. -/
def findPatCI (pat : Str) : Str → Option Nat
  | [] => if matchesAtCI pat [] then some 0 else none
  | c :: rest =>
    if matchesAtCI pat (c :: rest) then some 0
    else (findPatCI pat rest).map (· + 1)

/-- Fuel-driven worker for `removeBlocks`; every removal consumes at least
one character, so fuel equal to the length of the string suffices. -/
def removeBlocksGo (openPat closePat : Str) : Nat → Str → Str
  | 0, s => s
  | fuel + 1, s =>
    match findPatCI openPat s with
    | none => s
    | some i =>
      let afterOpen := s.drop (i + openPat.length)
      match findPatCI closePat afterOpen with
      | none => s
      | some j =>
        s.take i ++ removeBlocksGo openPat closePat fuel
          (afterOpen.drop (j + closePat.length))

/-- Model of the lazy block-removal regexes in cleanText: delete every
segment from an opening pattern to the nearest closing pattern; an opening
pattern with no closing pattern after it matches nothing. -/
def removeBlocks (openPat closePat s : Str) : Str :=
  removeBlocksGo openPat closePat s.length s

/-- Fuel-driven worker for `stripTags`. -/
def stripTagsGo : Nat → Str → Str
  | 0, s => s
  | _, [] => []
  | fuel + 1, c :: rest =>
    if c = '<' then
      match splitFirst '>' rest with
      | (_, none) => c :: rest
      | (inside, some after) =>
        if inside.isEmpty then c :: stripTagsGo fuel rest
        else ' ' :: stripTagsGo fuel after
    else c :: stripTagsGo fuel rest

/-- Model of the tag-stripping regex in cleanText: every maximal
angle-bracket group with a non-empty body becomes a single space. -/
def stripTags (s : Str) : Str := stripTagsGo s.length s

/-- Model of cleanText (utilities.js): drop script, style, comment and
noscript blocks, strip the remaining tags, collapse whitespace, trim. -/
def cleanText (html : Str) : Str :=
  let a := removeBlocks "<script".data "</script>".data html
  let b := removeBlocks "<style".data "</style>".data a
  let c := removeBlocks "<!--".data "-->".data b
  let d := removeBlocks "<noscript".data "</noscript>".data c
  trim (collapseWs (stripTags d))

/- ## api/src/scraper.js: the dual-strategy text scrape -/

/-- What the headless browser yields for a page: the rendered visible text
of the best content container and the full markup. -/
structure RenderedPage where
  visibleText : Str
  content : Str

/-- Remote-world oracle for the scraper: the HTTP fast path yields raw
markup or a thrown error (non-success status, non-HTML content type,
network failure or timeout); the rendering fallback yields a page or a
thrown navigation error. -/
structure ScrapeEnv where
  httpHtml : Str → Except Str Str
  render : Str → Except Str RenderedPage

/-- Model of fetchViaHttp (scraper.js): fetch the markup and reduce it to
flat text. -/
def fetchViaHttp (env : ScrapeEnv) (url : Str) : Except Str Str :=
  (env.httpHtml url).map cleanText

/-- Model of fetchViaBrowser (scraper.js): prefer the rendered visible
text when, with whitespace collapsed, it is longer than 200 characters;
otherwise reduce the rendered markup with cleanText. -/
def fetchViaBrowser (env : ScrapeEnv) (url : Str) : Except Str Str :=
  match env.render url with
  | Except.error e => Except.error e
  | Except.ok pg =>
    let visible := trim pg.visibleText
    if visible ≠ [] ∧ 200 < (collapseWs visible).length then
      Except.ok (trim (collapseWs visible))
    else Except.ok (cleanText pg.content)

/-- Model of scrapeText (scraper.js): validate the address, try the HTTP
fast path, accept its text when at least 200 characters, otherwise fall
back to the rendering strategy. -/
def scrapeText (env : ScrapeEnv) (rawUrl : Str) : Except Str Str :=
  if rawUrl.isEmpty || !isHttpUrl rawUrl then
    Except.error "scrapeText: please provide a valid HTTP(S) URL".data
  else
    match cleanUrl rawUrl with
    | none => Except.error "scrapeText: please provide a valid HTTP(S) URL".data
    | some url =>
      match fetchViaHttp env url with
      | Except.ok text =>
        if text ≠ [] ∧ 200 ≤ text.length then Except.ok text
        else fetchViaBrowser env url
      | Except.error _ => fetchViaBrowser env url

/-- Environment where the fast path throws and the rendered page is
completely empty. -/
def c4Env : ScrapeEnv :=
  { httpHtml := fun _ => Except.error "HTTP 500".data
    render := fun _ => Except.ok { visibleText := [], content := [] } }

/-- Environment where the fast path throws and the rendered page has
markup but no text content. -/
def c4CexEnv : ScrapeEnv :=
  { httpHtml := fun _ => Except.error "HTTP 500".data
    render := fun _ => Except.ok { visibleText := [], content := "<div><p> </p></div>".data } }

/- ## api/src/chunk.js: the overlapping chunker -/

/-- Fuel-driven worker for `chunkText`; the window start advances by
`step ≥ 1` each iteration, so fuel equal to the text length suffices. -/
def chunkTextGo (text : Str) (maxChars step : Nat) : Nat → Nat → List Str
  | 0, _ => []
  | fuel + 1, i =>
    if i < text.length then
      let piece := trim ((text.drop i).take maxChars)
      (if piece.isEmpty then [] else [piece])
        ++ chunkTextGo text maxChars step fuel (i + step)
    else []

/-- Model of chunkText (chunk.js): slide a window of maxChars over the
text in steps of maxChars - overlap, trim each window, skip empty pieces.
The JavaScript loop does not terminate when overlap ≥ maxChars (the step
is then not positive); the model is restricted to overlap < maxChars and
returns [] otherwise. -/
def chunkText (text : Str) (maxChars overlap : Nat) : List Str :=
  if overlap < maxChars then
    chunkTextGo text maxChars (maxChars - overlap) text.length 0
  else []

/- ## api/src/utilities.js withRetry: exponential backoff retries -/

/-- Fuel-driven worker for `withRetry`.  An operation is modelled as a
function from the attempt number (1-based) to its settled outcome; the
result carries the outcome of the loop and the number of invocations
performed.  The fuel (always called with fuel = tries) only bounds the
recursion; the attempt < tries test is the source's loop condition. -/
def withRetryGo {ε α : Type} (op : Nat → Except ε α) (tries : Nat) :
    Nat → Nat → Except ε α × Nat
  | 0, attempt => (op attempt, 1)
  | fuel + 1, attempt =>
    match op attempt with
    | Except.ok v => (Except.ok v, 1)
    | Except.error e =>
      if attempt < tries then
        ((withRetryGo op tries fuel (attempt + 1)).1,
         (withRetryGo op tries fuel (attempt + 1)).2 + 1)
      else (Except.error e, 1)

/-- Model of withRetry (utilities.js): invoke the operation up to `tries`
times, returning the first success or the last error, together with the
number of invocations made.  With tries = 0 the JavaScript loop never runs
and throws its undefined lastErr, modelled as the `none` outcome. -/
def withRetry {ε α : Type} (op : Nat → Except ε α) (tries : Nat) :
    Option (Except ε α) × Nat :=
  if 0 < tries then
    (some (withRetryGo op tries tries 1).1, (withRetryGo op tries tries 1).2)
  else (none, 0)

/-- Record of the default option values of withRetry. -/
structure RetryOpts where
  tries : Nat
  baseDelayMs : ℚ
  jitter : Bool

/-- The defaults destructured in the withRetry signature
(utilities.js: tries = 3, baseDelayMs = 250, jitter = true). -/
def withRetryDefaults : RetryOpts :=
  { tries := 3, baseDelayMs := 250, jitter := true }

/-- The backoff delay computed before a retry: baseDelayMs * 2^(attempt-1)
scaled, when jitter is enabled, by 0.8 + 0.4 * r where r models the
Math.random() sample in [0,1). -/
def backoffDelay (base : ℚ) (attempt : Nat) (jit : Bool) (r : ℚ) : ℚ :=
  let backoff := base * 2 ^ (attempt - 1)
  if jit then backoff * (4 / 5 + r * (2 / 5)) else backoff

/-- Operation that fails on every attempt. -/
def c6AlwaysFails : Nat → Except String Nat := fun _ => Except.error "boom"

/-- Operation that fails twice, then succeeds on the third attempt. -/
def c6ThirdTime : Nat → Except String Nat :=
  fun n => if n = 3 then Except.ok 7 else Except.error "boom"

/- ## api/src/pinecone.js upsertVectors: batched, retried persistence -/

/-- A vector record as validated by upsertVectors: only the id and the
value sequence are inspected (metadata is opaque to the writer). -/
structure PVector (α : Type) where
  id : Str
  values : List α
deriving DecidableEq, Repr

/-- Fuel-driven worker for `chunkArr`. -/
def chunkArrGo {α : Type} (size : Nat) : Nat → List α → List (List α)
  | 0, _ => []
  | _, [] => []
  | fuel + 1, arr => arr.take size :: chunkArrGo size fuel (arr.drop size)

/-- Model of chunk (utilities.js): consecutive slices of the given size.
The JavaScript loop does not terminate for size = 0; the model is
restricted to positive sizes (the only call site passes 100). -/
def chunkArr {α : Type} (arr : List α) (size : Nat) : List (List α) :=
  if 0 < size then chunkArrGo size arr.length arr else []

/-- The remote vector store as the writer sees it: whether the upsert call
for a given batch index succeeds at a given attempt number. -/
structure UpsertEnv where
  attemptOk : Nat → Nat → Bool

/-- One batch upsert as the operation handed to withRetry. -/
def batchAttempt (env : UpsertEnv) (bi : Nat) : Nat → Except Str Unit :=
  fun attempt =>
    if env.attemptOk bi attempt then Except.ok ()
    else Except.error "upsert failed".data

/-- Errors surfaced by the writer. -/
inductive UpsertErr
  | invalidVector (i : Nat)
  | remote (e : Str)
deriving DecidableEq, Repr

/-- Fuel-free worker for upsertVectors: upsert each batch under the
withRetry policy with tries = 3 and accumulate the committed count; a
batch whose retries are exhausted propagates its error (the none branch is
unreachable because tries = 3 is positive). -/
def upsertGo {α : Type} (env : UpsertEnv) :
    List (List (PVector α)) → Nat → Nat → Except UpsertErr Nat
  | [], _, total => Except.ok total
  | b :: rest, bi, total =>
    match (withRetry (batchAttempt env bi) 3).1 with
    | some (Except.ok _) => upsertGo env rest (bi + 1) (total + b.length)
    | some (Except.error e) => Except.error (UpsertErr.remote e)
    | none => Except.error (UpsertErr.remote "upsert failed".data)

/-- Model of upsertVectors (pinecone.js): empty input short-circuits with
count 0; a vector with an empty id or empty value sequence fails fast with
its index; otherwise the vectors are upserted in batches of 100. -/
def upsertVectors {α : Type} (env : UpsertEnv) (vectors : List (PVector α)) :
    Except UpsertErr Nat :=
  if vectors.isEmpty then Except.ok 0
  else
    match vectors.findIdx? (fun v => v.id.isEmpty || v.values.isEmpty) with
    | some i => Except.error (UpsertErr.invalidVector i)
    | none => upsertGo env (chunkArr vectors 100) 0 0

/-- A list of n identical valid vectors. -/
def c2Vectors (n : Nat) : List (PVector Nat) :=
  List.replicate n { id := ['a'], values := [0] }

/-- Remote store that accepts every batch at the first attempt. -/
def c2AllOkEnv : UpsertEnv := { attemptOk := fun _ _ => true }

/-- Remote store where batch 0 succeeds and every later batch fails each
attempt. -/
def c2FailEnv : UpsertEnv := { attemptOk := fun bi _ => bi == 0 }

/- ## pinecone.js getIndexForNamespace and web/src/App.jsx computeNamespace -/

/-- Model of getIndexForNamespace (pinecone.js): the namespace actually
targeted by the writer is the per-call namespace when given, else the
PINECONE_NAMESPACE deployment default; an empty string in either place
falls through to the store's default partition (none). -/
def effectiveNamespace (ns envNs : Option Str) : Option Str :=
  let a := match ns with
    | none => envNs
    | some s => some s
  match a with
  | none => none
  | some s => if s.isEmpty then none else some s

/-- Strip one leading www. from a hostname (App.jsx computeNamespace). -/
def stripWww (h : Str) : Str :=
  match h with
  | 'w' :: 'w' :: 'w' :: '.' :: rest => rest
  | _ => h

/-- Model of computeNamespace (web/src/App.jsx): hostname without the
www. marker and without the final dot-separated label, joined with
dashes; the literal docs when that is empty or the address is invalid. -/
def computeNamespace (url : Str) : Str :=
  match parseURL url with
  | none => "docs".data
  | some u =>
    let hn := stripWww (splitFirst ':' u.host).1
    let joined := joinSep '-' (splitAll '.' hn).dropLast
    if joined.isEmpty then "docs".data else joined

/- ## api/src/routes/crawl.js: the bounded-depth crawl loop -/

/-- A frontier entry: an address and the link depth it was found at. -/
structure CrawlTask where
  url : Str
  depth : Nat
deriving DecidableEq, Repr

/-- Remote-world oracle for one crawl: raw-HTML fetch outcome per address
(none models a thrown fetch error), link discovery from markup and base
address (a thrown discovery error is modelled as the empty list, as the
loop catches it and queues nothing), text-scrape outcome per address, and
the embed-plus-upsert outcome for a page's chunks (none models any error
thrown while chunking, embedding or upserting; some n is the upserted
count).  The title extraction only decorates vector metadata, which the
embed/upsert oracle absorbs. -/
structure CrawlEnv where
  fetchHtml : Str → Option Str
  discoverLinks : Str → Str → List Str
  scrape : Str → Option Str
  embedUpsert : Str → List Str → Option Nat

/-- The clamped crawl configuration, plus the namespace inputs: the
caller-supplied namespace threaded to every upsertVectors call and the
PINECONE_NAMESPACE deployment default read by getIndexForNamespace. -/
structure CrawlConfig where
  maxDepth : Nat
  maxPages : Nat
  delayMs : Nat
  callerNs : Option Str
  envNs : Option Str

/-- The crawl-loop state: the frontier q, the seen-set, the two counters,
and ghost fields recording what happened — the tasks that passed the
seen/depth filter (processed), the addresses for which crawled was
incremented (counted), the number of politeness sleeps performed, and the
effective namespace of each embed/upsert step (nsUsed). -/
structure CrawlState where
  q : List CrawlTask
  seen : List Str
  crawled : Nat
  upserted : Nat
  processed : List CrawlTask
  counted : List Str
  sleeps : Nat
  nsUsed : List (Option Str)
deriving Repr

/-- One iteration of the while loop in routes/crawl.js: pop the head
task; discard it when already seen or too deep; otherwise mark it seen,
fetch the raw markup (a failure skips the page after marking it seen),
queue the discovered not-yet-seen links at depth + 1, scrape the text (a
failure skips the page, links stay queued), chunk-embed-upsert (a failure
is caught and only forfeits the upserted count), then count the page as
crawled and sleep for the politeness delay when it is non-zero. -/
def crawlStep (env : CrawlEnv) (cfg : CrawlConfig) (s : CrawlState) : CrawlState :=
  match s.q with
  | [] => s
  | t :: rest =>
    if t.url ∈ s.seen ∨ cfg.maxDepth < t.depth then { s with q := rest }
    else
      let seen' := t.url :: s.seen
      let processed' := s.processed ++ [t]
      match env.fetchHtml t.url with
      | none => { s with q := rest, seen := seen', processed := processed' }
      | some html =>
        let newTasks := ((env.discoverLinks html t.url).filter
          (fun l => decide (l ∉ seen'))).map
            (fun l => ({ url := l, depth := t.depth + 1 } : CrawlTask))
        let q' := rest ++ newTasks
        match env.scrape t.url with
        | none => { s with q := q', seen := seen', processed := processed' }
        | some text =>
          let chunks := chunkText text 1200 150
          let upNs : Nat × List (Option Str) :=
            if chunks.isEmpty then (0, [])
            else
              match env.embedUpsert t.url chunks with
              | some n => (n, [effectiveNamespace cfg.callerNs cfg.envNs])
              | none => (0, [effectiveNamespace cfg.callerNs cfg.envNs])
          { q := q', seen := seen', crawled := s.crawled + 1,
            upserted := s.upserted + upNs.1,
            processed := processed', counted := s.counted ++ [t.url],
            sleeps := s.sleeps + (if cfg.delayMs = 0 then 0 else 1),
            nsUsed := s.nsUsed ++ upNs.2 }

/-- The loop guard of routes/crawl.js, negated: the crawl stops when the
frontier is empty or the page cap is reached. -/
def crawlDone (cfg : CrawlConfig) (s : CrawlState) : Prop :=
  s.q = [] ∨ cfg.maxPages ≤ s.crawled

instance (cfg : CrawlConfig) (s : CrawlState) : Decidable (crawlDone cfg s) :=
  inferInstanceAs (Decidable (s.q = [] ∨ cfg.maxPages ≤ s.crawled))

/-- The crawl loop, iterated under a fuel bound: run the step while the
guard holds and fuel remains.  (Termination — that some fuel reaches the
guard — is proved separately.) -/
def crawlRun (env : CrawlEnv) (cfg : CrawlConfig) : Nat → CrawlState → CrawlState
  | 0, s => s
  | n + 1, s =>
    if crawlDone cfg s then s else crawlRun env cfg n (crawlStep env cfg s)

/-- The initial crawl state: the cleaned seed at depth 0, nothing seen,
both counters zero. -/
def initState (seed : Str) : CrawlState :=
  { q := [{ url := seed, depth := 0 }], seen := [], crawled := 0, upserted := 0,
    processed := [], counted := [], sleeps := 0, nsUsed := [] }

/-- The crawl-loop invariant: the page counter never exceeds the cap;
every processed task passed the depth filter; processed addresses are
pairwise distinct and all marked seen; the counted addresses are exactly
the processed addresses whose raw fetch and text scrape both succeeded;
the page counter and the number of politeness sleeps agree with them; and
every embed/upsert step used the one effective namespace of the call. -/
def StateInv (env : CrawlEnv) (cfg : CrawlConfig) (s : CrawlState) : Prop :=
  s.crawled ≤ cfg.maxPages ∧
  (∀ t ∈ s.processed, t.depth ≤ cfg.maxDepth) ∧
  (s.processed.map CrawlTask.url).Nodup ∧
  (∀ t ∈ s.processed, t.url ∈ s.seen) ∧
  s.counted = (s.processed.filter (fun t =>
      (env.fetchHtml t.url).isSome && (env.scrape t.url).isSome)).map CrawlTask.url ∧
  s.crawled = s.counted.length ∧
  s.sleeps = (if cfg.delayMs = 0 then 0 else s.crawled) ∧
  (∀ x ∈ s.nsUsed, x = effectiveNamespace cfg.callerNs cfg.envNs)

/-! ## Claim theorems and supporting lemmas -/

/- ### Lemmas about the splitting utilities -/

theorem splitFirst_of_not_mem {sep : Char} {s : Str} (h : sep ∉ s) :
    splitFirst sep s = (s, none) := by
  induction s with
  | nil => rfl
  | cons c rest ih =>
    simp only [List.mem_cons, not_or] at h
    simp [splitFirst, Ne.symm h.1, ih h.2]

theorem splitFirst_append {sep : Char} {a b : Str} (h : sep ∉ a) :
    splitFirst sep (a ++ sep :: b) = (a, some b) := by
  induction a with
  | nil => simp [splitFirst]
  | cons c rest ih =>
    simp only [List.mem_cons, not_or] at h
    simp [splitFirst, Ne.symm h.1, ih h.2]

theorem splitFirst_fst_not_mem {sep : Char} {s a : Str} {r : Option Str}
    (h : splitFirst sep s = (a, r)) : sep ∉ a := by
  induction s generalizing a r with
  | nil =>
    simp only [splitFirst, Prod.mk.injEq] at h
    rw [← h.1]
    simp
  | cons c rest ih =>
    by_cases hc : c = sep
    · simp only [splitFirst, if_pos hc, Prod.mk.injEq] at h
      rw [← h.1]
      simp
    · simp only [splitFirst, if_neg hc, Prod.mk.injEq] at h
      rw [← h.1]
      simp only [List.mem_cons, not_or]
      exact ⟨fun he => hc he.symm, ih rfl⟩

theorem splitFirst_eq_some {sep : Char} {s a b : Str}
    (h : splitFirst sep s = (a, some b)) : s = a ++ sep :: b := by
  induction s generalizing a b with
  | nil => simp [splitFirst] at h
  | cons c rest ih =>
    by_cases hc : c = sep
    · simp only [splitFirst, if_pos hc, Prod.mk.injEq, Option.some.injEq] at h
      rw [← h.1, ← h.2, hc]
      rfl
    · simp only [splitFirst, if_neg hc, Prod.mk.injEq] at h
      have hrec := ih (a := (splitFirst sep rest).1) (b := b) (by rw [← h.2])
      calc c :: rest = c :: ((splitFirst sep rest).1 ++ sep :: b) := by rw [← hrec]
        _ = (c :: (splitFirst sep rest).1) ++ sep :: b := rfl
        _ = a ++ sep :: b := by rw [h.1]

theorem splitFirst_none_eq {sep : Char} {s a : Str}
    (h : splitFirst sep s = (a, none)) : a = s := by
  induction s generalizing a with
  | nil =>
    simp only [splitFirst, Prod.mk.injEq] at h
    exact h.1.symm
  | cons c rest ih =>
    by_cases hc : c = sep
    · simp only [splitFirst, if_pos hc, Prod.mk.injEq] at h
      exact absurd h.2 (by simp)
    · simp only [splitFirst, if_neg hc, Prod.mk.injEq] at h
      rw [← h.1, ih (a := (splitFirst sep rest).1) (by rw [← h.2])]

theorem splitFirst_some_length {sep : Char} {s a b : Str}
    (h : splitFirst sep s = (a, some b)) : b.length < s.length := by
  rw [splitFirst_eq_some h]
  simp only [List.length_append, List.length_cons]
  omega

theorem joinSep_length {sep : Char} (parts : List Str) :
    parts.length ≤ (joinSep sep parts).length + 1 := by
  induction parts with
  | nil => simp
  | cons p rest ih =>
    cases rest with
    | nil => simp [joinSep]
    | cons q rs =>
      simp only [joinSep, List.length_cons, List.length_append] at ih ⊢
      omega

theorem splitAllGo_joinSep {sep : Char} {parts : List Str} {fuel : Nat}
    (hne : parts ≠ []) (hs : ∀ p ∈ parts, sep ∉ p)
    (hfuel : parts.length ≤ fuel + 1) :
    splitAllGo sep fuel (joinSep sep parts) = parts := by
  induction fuel generalizing parts with
  | zero =>
    rcases parts with _ | ⟨p, rest⟩
    · exact absurd rfl hne
    · have : rest = [] := by
        rcases rest with _ | _
        · rfl
        · simp at hfuel
      subst this
      rfl
  | succ fuel ih =>
    rcases parts with _ | ⟨p, rest⟩
    · exact absurd rfl hne
    · rcases rest with _ | ⟨q, rs⟩
      · have hp : sep ∉ p := hs p (by simp)
        simp [splitAllGo, joinSep, splitFirst_of_not_mem hp]
      · have hp : sep ∉ p := hs p (by simp)
        have hjoin : joinSep sep (p :: q :: rs) = p ++ sep :: joinSep sep (q :: rs) := rfl
        rw [hjoin]
        simp only [splitAllGo, splitFirst_append hp]
        rw [ih (by simp) (fun x hx => hs x (List.mem_cons_of_mem p hx))
          (by simp at hfuel ⊢; omega)]

theorem splitAll_joinSep {sep : Char} {parts : List Str}
    (hne : parts ≠ []) (hs : ∀ p ∈ parts, sep ∉ p) :
    splitAll sep (joinSep sep parts) = parts :=
  splitAllGo_joinSep hne hs (by have := @joinSep_length sep parts; omega)

theorem splitAllGo_sep_not_mem {sep : Char} {fuel : Nat} {s p : Str}
    (hfuel : s.length ≤ fuel) (hp : p ∈ splitAllGo sep fuel s) : sep ∉ p := by
  induction fuel generalizing s with
  | zero =>
    have : s = [] := List.length_eq_zero.mp (Nat.le_zero.mp hfuel)
    subst this
    simp only [splitAllGo, List.mem_singleton] at hp
    simp [hp]
  | succ fuel ih =>
    simp only [splitAllGo] at hp
    rcases hsf : splitFirst sep s with ⟨a, r⟩
    rcases r with _ | rest
    · rw [hsf] at hp
      simp only [List.mem_singleton] at hp
      subst hp
      exact splitFirst_fst_not_mem hsf
    · rw [hsf] at hp
      simp only [List.mem_cons] at hp
      rcases hp with hp | hp
      · subst hp
        exact splitFirst_fst_not_mem hsf
      · have hlen := splitFirst_some_length hsf
        exact ih (by omega) hp

theorem splitAllGo_mem_subset {sep : Char} {fuel : Nat} {s p : Str}
    (hp : p ∈ splitAllGo sep fuel s) : ∀ x ∈ p, x ∈ s := by
  induction fuel generalizing s with
  | zero =>
    simp only [splitAllGo, List.mem_singleton] at hp
    subst hp
    exact fun x hx => hx
  | succ fuel ih =>
    simp only [splitAllGo] at hp
    rcases hsf : splitFirst sep s with ⟨a, r⟩
    rcases r with _ | rest
    · rw [hsf] at hp
      simp only [List.mem_singleton] at hp
      subst hp
      rw [splitFirst_none_eq hsf]
      exact fun x hx => hx
    · rw [hsf] at hp
      have hseq := splitFirst_eq_some hsf
      simp only [List.mem_cons] at hp
      rcases hp with hp | hp
      · subst hp
        intro x hx
        rw [hseq]
        simp [hx]
      · intro x hx
        rw [hseq]
        have := ih hp x hx
        simp [this]

theorem joinSep_mem {sep : Char} {parts : List Str} {x : Char}
    (hx : x ∈ joinSep sep parts) : x = sep ∨ ∃ p ∈ parts, x ∈ p := by
  induction parts with
  | nil => simp [joinSep] at hx
  | cons p rest ih =>
    rcases rest with _ | ⟨q, rs⟩
    · right
      exact ⟨p, by simp, hx⟩
    · simp only [joinSep, List.mem_append, List.mem_cons] at hx
      rcases hx with hx | hx | hx
      · right; exact ⟨p, by simp, hx⟩
      · left; exact hx
      · rcases ih hx with h | ⟨r, hr, hxr⟩
        · left; exact h
        · right; exact ⟨r, List.mem_cons_of_mem p hr, hxr⟩

/- ### Lemmas: scheme characters, query round-trip, parser well-formedness -/

theorem validScheme_mem {s : Str} (h : validScheme s = true) {c : Char}
    (hc : c ∈ s) : (c.isAlpha || isSchemeChar c) = true := by
  rcases s with _ | ⟨c0, rest⟩
  · simp at hc
  · simp only [validScheme, Bool.and_eq_true, List.all_eq_true] at h
    rcases List.mem_cons.mp hc with rfl | hmem
    · simp [h.1]
    · simp [h.2 c hmem]

theorem validScheme_not_special {s : Str} (h : validScheme s = true) :
    ':' ∉ s ∧ '/' ∉ s ∧ '?' ∉ s ∧ '#' ∉ s := by
  refine ⟨fun hc => ?_, fun hc => ?_, fun hc => ?_, fun hc => ?_⟩ <;>
    exact absurd (validScheme_mem h hc) (by decide)

theorem parseQuery_serializeQuery {q : List (Str × Str)}
    (hq : ∀ kv ∈ q, '=' ∉ kv.1 ∧ '&' ∉ kv.1 ∧ '&' ∉ kv.2) :
    q ≠ [] → parseQuery (serializeQuery q) = q := by
  intro hne
  have hpieces : ∀ p ∈ q.map (fun kv => kv.1 ++ '=' :: kv.2), '&' ∉ p := by
    intro p hp
    rcases List.mem_map.mp hp with ⟨kv, hkv, rfl⟩
    simp only [List.mem_append, List.mem_cons, not_or]
    exact ⟨(hq kv hkv).2.1, by decide, (hq kv hkv).2.2⟩
  unfold parseQuery serializeQuery
  rw [splitAll_joinSep (by simpa using hne) hpieces]
  have hfilter :
      (q.map (fun kv => kv.1 ++ '=' :: kv.2)).filter (fun p => !p.isEmpty)
        = q.map (fun kv => kv.1 ++ '=' :: kv.2) := by
    apply List.filter_eq_self.mpr
    intro p hp
    rcases List.mem_map.mp hp with ⟨kv, _, rfl⟩
    simp
  rw [hfilter, List.map_map]
  have hid : ∀ kv ∈ q, (parseQueryPiece ∘ fun kv => kv.1 ++ '=' :: kv.2) kv = kv := by
    intro kv hkv
    simp only [Function.comp_apply, parseQueryPiece, splitFirst_append (hq kv hkv).1]
  calc q.map (parseQueryPiece ∘ fun kv => kv.1 ++ '=' :: kv.2)
      = q.map id := List.map_congr_left hid
    _ = q := List.map_id q

theorem parseQuery_wf {qs : Str} {kv : Str × Str} (h : kv ∈ parseQuery qs) :
    ('=' ∉ kv.1 ∧ '&' ∉ kv.1 ∧ '&' ∉ kv.2) ∧
    (∀ x ∈ kv.1, x ∈ qs) ∧ (∀ x ∈ kv.2, x ∈ qs) := by
  unfold parseQuery at h
  rcases List.mem_map.mp h with ⟨p, hp, hkv⟩
  have hpmem : p ∈ splitAll '&' qs := (List.mem_filter.mp hp).1
  have hamp : '&' ∉ p := splitAllGo_sep_not_mem le_rfl hpmem
  have hsub : ∀ x ∈ p, x ∈ qs := splitAllGo_mem_subset hpmem
  unfold parseQueryPiece at hkv
  rcases hsf : splitFirst '=' p with ⟨k, r⟩
  have hknot : '=' ∉ k := splitFirst_fst_not_mem hsf
  rcases r with _ | v
  · rw [hsf] at hkv
    have hk : k = p := splitFirst_none_eq hsf
    rw [← hkv]
    subst hk
    exact ⟨⟨hknot, hamp, by simp⟩, fun x hx => hsub x hx, by simp⟩
  · rw [hsf] at hkv
    have hpk := splitFirst_eq_some hsf
    rw [← hkv]
    refine ⟨⟨hknot, fun hx => hamp (by rw [hpk]; simp [hx]),
      fun hx => hamp (by rw [hpk]; simp [hx])⟩,
      fun x hx => hsub x (by rw [hpk]; simp [hx]),
      fun x hx => hsub x (by rw [hpk]; simp [hx])⟩

theorem splitFirst_fst_subset {sep : Char} {s a : Str} {r : Option Str}
    (h : splitFirst sep s = (a, r)) : ∀ x ∈ a, x ∈ s := by
  rcases r with _ | b
  · rw [splitFirst_none_eq h]
    exact fun x hx => hx
  · intro x hx
    rw [splitFirst_eq_some h]
    simp [hx]

theorem splitFirst_snd_subset {sep : Char} {s a b : Str}
    (h : splitFirst sep s = (a, some b)) : ∀ x ∈ b, x ∈ s := by
  intro x hx
  rw [splitFirst_eq_some h]
  simp [hx]

theorem dropSlashSlash_eq_some {r hostPath : Str}
    (h : dropSlashSlash r = some hostPath) : r = '/' :: '/' :: hostPath := by
  match r with
  | [] => simp [dropSlashSlash] at h
  | [c] =>
    unfold dropSlashSlash at h
    split at h
    · simp_all
    · simp at h
  | c1 :: c2 :: rest =>
    unfold dropSlashSlash at h
    split at h
    · simp_all
    · simp at h

theorem parseURL_wf {s : Str} {u : URLParts} (h : parseURL s = some u) :
    WFURL u := by
  simp only [parseURL] at h
  rcases h3 : splitFirst ':' (splitFirst '?' (splitFirst '#' s).1).1 with ⟨schemeRaw, rest⟩
  rw [h3] at h
  rcases rest with _ | rest
  · simp at h
  simp only at h
  by_cases hvs : validScheme schemeRaw
  swap
  · rw [if_neg hvs] at h
    simp at h
  rw [if_pos hvs] at h
  rcases hds : dropSlashSlash rest with _ | hostPath
  · rw [hds] at h
    simp at h
  rw [hds] at h
  simp only at h
  by_cases hvh : validHost (splitFirst '/' hostPath).1
  swap
  · rw [if_neg hvh] at h
    simp at h
  rw [if_pos hvh] at h
  simp only [Option.some.injEq] at h
  subst h
  -- membership chains through the splits
  have hnoHash : '#' ∉ (splitFirst '#' s).1 :=
    splitFirst_fst_not_mem (s := s) rfl
  have hnoQ : '?' ∉ (splitFirst '?' (splitFirst '#' s).1).1 :=
    splitFirst_fst_not_mem (s := (splitFirst '#' s).1) rfl
  have hsubQ : ∀ x ∈ (splitFirst '?' (splitFirst '#' s).1).1, x ∈ (splitFirst '#' s).1 :=
    splitFirst_fst_subset (s := (splitFirst '#' s).1) rfl
  have hsubRest : ∀ x ∈ rest, x ∈ (splitFirst '?' (splitFirst '#' s).1).1 :=
    splitFirst_snd_subset h3
  have hsubHostPath : ∀ x ∈ hostPath, x ∈ rest := by
    intro x hx
    rw [dropSlashSlash_eq_some hds]
    simp [hx]
  have hsubHost : ∀ x ∈ (splitFirst '/' hostPath).1, x ∈ hostPath :=
    splitFirst_fst_subset (s := hostPath) rfl
  have hostNoQ : ∀ x ∈ (splitFirst '/' hostPath).1, x ≠ '?' := by
    intro x hx he
    exact hnoQ (he ▸ hsubRest _ (hsubHostPath _ (hsubHost _ hx)))
  have hostNoHash : ∀ x ∈ (splitFirst '/' hostPath).1, x ≠ '#' := by
    intro x hx he
    exact hnoHash (he ▸ hsubQ _ (hsubRest _ (hsubHostPath _ (hsubHost _ hx))))
  refine ⟨hvs, hvh, ?_, ?_, ?_, ?_⟩
  · intro c hc
    exact ⟨fun he => splitFirst_fst_not_mem (s := hostPath) rfl (he ▸ hc),
      hostNoQ c hc, hostNoHash c hc⟩
  · rcases hps : (splitFirst '/' hostPath).2 with _ | p
    · exact ⟨[], by simp [hps]⟩
    · exact ⟨p, by simp [hps]⟩
  · rcases hps : (splitFirst '/' hostPath).2 with _ | p
    · simp only [hps]
      intro c hc
      rcases List.mem_singleton.mp hc with rfl
      exact ⟨by decide, by decide⟩
    · simp only [hps]
      intro c hc
      rcases List.mem_cons.mp hc with rfl | hc
      · exact ⟨by decide, by decide⟩
      · have hcp : c ∈ hostPath := by
          have := splitFirst_eq_some (s := hostPath) (by rw [← hps])
          rw [this]
          simp [hc]
        refine ⟨fun he => hnoQ (he ▸ hsubRest _ (hsubHostPath _ hcp)), ?_⟩
        exact fun he => hnoHash (he ▸ hsubQ _ (hsubRest _ (hsubHostPath _ hcp)))
  · rcases hqs : (splitFirst '?' (splitFirst '#' s).1).2 with _ | qs
    · simp [hqs]
    · simp only [hqs]
      intro kv hkv
      have hwf := parseQuery_wf hkv
      have hsubqs : ∀ x ∈ qs, x ∈ (splitFirst '#' s).1 :=
        splitFirst_snd_subset (s := (splitFirst '#' s).1) (by rw [← hqs])
      refine ⟨⟨hwf.1.1, hwf.1.2.1, fun hx => hnoHash (hsubqs _ (hwf.2.1 _ hx))⟩,
        hwf.1.2.2, fun hx => hnoHash (hsubqs _ (hwf.2.2 _ hx))⟩

theorem serializeURL_eq {u : URLParts} (hf : u.frag = none) :
    serializeURL u = (u.scheme ++ ':' :: '/' :: '/' :: (u.host ++ u.path))
      ++ (if u.query.isEmpty then [] else '?' :: serializeQuery u.query) := by
  simp [serializeURL, hf, List.append_assoc]

theorem base_not_mem {u : URLParts} (hwf : WFURL u) {x : Char}
    (hx : x ≠ ':' ∧ x ≠ '/' ∧ (x.isAlpha || isSchemeChar x) = false
      ∧ (∀ c ∈ u.host, c ≠ x) ∧ (∀ c ∈ u.path, c ≠ x)) :
    x ∉ u.scheme ++ ':' :: '/' :: '/' :: (u.host ++ u.path) := by
  intro hmem
  simp only [List.mem_append, List.mem_cons] at hmem
  rcases hmem with hs | h1 | h2 | h3 | hh | hp
  · rw [validScheme_mem hwf.1 hs] at hx
    exact absurd hx.2.2.1 (by simp)
  · exact hx.1 h1
  · exact hx.2.1 h2
  · exact hx.2.1 h3
  · exact hx.2.2.2.1 x hh rfl
  · exact hx.2.2.2.2 x hp rfl

theorem serializeQuery_hash_not_mem {u : URLParts} (hwf : WFURL u) :
    '#' ∉ serializeQuery u.query := by
  intro hx
  rcases joinSep_mem hx with he | ⟨p, hp, hxp⟩
  · exact absurd he (by decide)
  · rcases List.mem_map.mp hp with ⟨kv, hkv, rfl⟩
    simp only [List.mem_append, List.mem_cons] at hxp
    rcases hxp with hk | he | hv
    · exact (hwf.2.2.2.2.2 kv hkv).1.2.2 hk
    · exact absurd he (by decide)
    · exact (hwf.2.2.2.2.2 kv hkv).2.2 hv

/-- Serialization of well-formed, fragment-free URL components re-parses to
exactly the same components. -/
theorem parseURL_serializeURL {u : URLParts} (hwf : WFURL u) (hf : u.frag = none) :
    parseURL (serializeURL u) = some u := by
  obtain ⟨hvs, hvh, hhost, ⟨p0, hpath⟩, hpathc, hquery⟩ := hwf
  have hwf' : WFURL u := ⟨hvs, hvh, hhost, ⟨p0, hpath⟩, hpathc, hquery⟩
  have hbase_hash : '#' ∉ u.scheme ++ ':' :: '/' :: '/' :: (u.host ++ u.path) :=
    base_not_mem hwf' ⟨by decide, by decide, by decide,
      fun c hc => (hhost c hc).2.2, fun c hc => (hpathc c hc).2⟩
  have hbase_q : '?' ∉ u.scheme ++ ':' :: '/' :: '/' :: (u.host ++ u.path) :=
    base_not_mem hwf' ⟨by decide, by decide, by decide,
      fun c hc => (hhost c hc).2.1, fun c hc => (hpathc c hc).1⟩
  have hscheme_colon : ':' ∉ u.scheme := (validScheme_not_special hvs).1
  have hhost_slash : '/' ∉ u.host := fun hc => (hhost _ hc).1 rfl
  have hsplit_colon :
      splitFirst ':' (u.scheme ++ ':' :: '/' :: '/' :: (u.host ++ u.path))
        = (u.scheme, some ('/' :: '/' :: (u.host ++ u.path))) :=
    splitFirst_append hscheme_colon
  have hsplit_slash : splitFirst '/' (u.host ++ u.path) = (u.host, some p0) := by
    rw [hpath]
    exact splitFirst_append hhost_slash
  by_cases hqe : u.query.isEmpty
  · have hser : serializeURL u = u.scheme ++ ':' :: '/' :: '/' :: (u.host ++ u.path) := by
      rw [serializeURL_eq hf, if_pos hqe, List.append_nil]
    have h1 : splitFirst '#' (serializeURL u) = (serializeURL u, none) :=
      splitFirst_of_not_mem (by rw [hser]; exact hbase_hash)
    have h2 : splitFirst '?' (serializeURL u) = (serializeURL u, none) :=
      splitFirst_of_not_mem (by rw [hser]; exact hbase_q)
    simp only [parseURL, h1, h2]
    rw [hser, hsplit_colon]
    simp only [if_pos hvs, dropSlashSlash, hsplit_slash]
    rw [if_pos hvh]
    simp only [Option.some.injEq]
    have : u.query = [] := by simpa using hqe
    exact URLParts.ext rfl rfl hpath.symm this.symm hf.symm
  · have hser : serializeURL u
        = (u.scheme ++ ':' :: '/' :: '/' :: (u.host ++ u.path))
          ++ '?' :: serializeQuery u.query := by
      rw [serializeURL_eq hf, if_neg hqe]
    have hsq_hash : '#' ∉ serializeQuery u.query := serializeQuery_hash_not_mem hwf'
    have h1 : splitFirst '#' (serializeURL u) = (serializeURL u, none) := by
      refine splitFirst_of_not_mem ?_
      rw [hser]
      intro hmem
      rcases List.mem_append.mp hmem with hm | hm
      · exact hbase_hash hm
      · rcases List.mem_cons.mp hm with he | hm
        · exact absurd he (by decide)
        · exact hsq_hash hm
    have h2 : splitFirst '?' (serializeURL u)
        = (u.scheme ++ ':' :: '/' :: '/' :: (u.host ++ u.path),
           some (serializeQuery u.query)) := by
      rw [hser]
      exact splitFirst_append hbase_q
    simp only [parseURL, h1, h2]
    rw [hsplit_colon]
    simp only [if_pos hvs, dropSlashSlash, hsplit_slash]
    rw [if_pos hvh]
    simp only [Option.some.injEq]
    have hqr : parseQuery (serializeQuery u.query) = u.query :=
      parseQuery_serializeQuery
        (fun kv hkv => ⟨(hquery kv hkv).1.1, (hquery kv hkv).1.2.1, (hquery kv hkv).2.1⟩)
        (by simpa using hqe)
    exact URLParts.ext rfl rfl hpath.symm hqr hf.symm

/- ### Lemmas about cleanPath and cleanUrlCore -/

theorem mem_of_mem_dropWhile {pr : Char → Bool} {l : Str} {x : Char}
    (h : x ∈ l.dropWhile pr) : x ∈ l := by
  induction l with
  | nil => simp at h
  | cons c rest ih =>
    rw [List.dropWhile_cons] at h
    by_cases hc : pr c
    · rw [if_pos hc] at h
      exact List.mem_cons_of_mem c (ih h)
    · rw [if_neg hc] at h
      exact h

theorem dropWhile_head_false {pr : Char → Bool} {l t : Str} {c : Char}
    (h : l.dropWhile pr = c :: t) : pr c = false := by
  induction l with
  | nil => simp at h
  | cons d rest ih =>
    rw [List.dropWhile_cons] at h
    by_cases hd : pr d
    · rw [if_pos hd] at h
      exact ih h
    · rw [if_neg hd] at h
      rw [(List.cons.injEq .. |>.mp h).1] at hd
      exact Bool.not_eq_true _ |>.mp hd

theorem mem_collapseTrailing {p : Str} {x : Char} (h : x ∈ collapseTrailing p) :
    x ∈ p ∨ x = '/' := by
  unfold collapseTrailing at h
  rcases List.mem_append.mp h with h | h
  · left
    rw [List.mem_reverse] at h
    exact List.mem_reverse.mp (mem_of_mem_dropWhile h)
  · right
    simpa using h

theorem mem_cleanPath {p : Str} {x : Char} (h : x ∈ cleanPath p) :
    x ∈ p ∨ x = '/' := by
  unfold cleanPath at h
  split at h
  · exact mem_collapseTrailing h
  · exact Or.inl h

theorem cleanPath_starts {p t : Str} (h : p = '/' :: t) :
    ∃ r, cleanPath p = '/' :: r := by
  unfold cleanPath
  split
  · subst h
    unfold collapseTrailing
    rw [List.reverse_cons, List.dropWhile_append]
    by_cases he : (t.reverse.dropWhile (fun c => c == '/')).isEmpty
    · rw [if_pos he]
      exact ⟨[], by simp⟩
    · rw [if_neg he]
      refine ⟨(t.reverse.dropWhile (fun c => c == '/')).reverse ++ ['/'], ?_⟩
      simp
  · exact ⟨t, h⟩

theorem collapseTrailing_getLast {p : Str} :
    (collapseTrailing p).getLast? = some '/' := by
  unfold collapseTrailing
  simp

theorem cleanPath_pos {p : Str} (hc : p ≠ ['/'] ∧ p.getLast? = some '/') :
    cleanPath p = collapseTrailing p := by
  unfold cleanPath
  exact if_pos hc

theorem cleanPath_neg {p : Str} (hc : ¬(p ≠ ['/'] ∧ p.getLast? = some '/')) :
    cleanPath p = p := by
  unfold cleanPath
  exact if_neg hc

theorem cleanPath_idem (p : Str) : cleanPath (cleanPath p) = cleanPath p := by
  by_cases hc : p ≠ ['/'] ∧ p.getLast? = some '/'
  · rw [cleanPath_pos hc]
    rcases hq : p.reverse.dropWhile (fun c => c == '/') with _ | ⟨c, t⟩
    · have hct : collapseTrailing p = ['/'] := by
        unfold collapseTrailing
        rw [hq]
        rfl
      rw [hct, cleanPath_neg (by simp)]
    · have hcnot : (c == '/') = false :=
        @dropWhile_head_false (fun x => x == '/') _ _ _ hq
      have hct : collapseTrailing p = (c :: t).reverse ++ ['/'] := by
        unfold collapseTrailing
        rw [hq]
      have hne : (c :: t).reverse ++ ['/'] ≠ ['/'] := by
        intro he
        have := congrArg List.length he
        simp at this
      rw [hct, cleanPath_pos ⟨hne, by simp⟩]
      unfold collapseTrailing
      rw [List.reverse_append, List.reverse_reverse]
      simp only [List.reverse_cons, List.reverse_nil, List.nil_append,
        List.singleton_append, List.dropWhile_cons]
      rw [if_pos (by simp), if_neg (by simp [hcnot])]
      simp
  · rw [cleanPath_neg hc, cleanPath_neg hc]

theorem cleanUrlCore_wf {strip : List Str} {u : URLParts} (hwf : WFURL u) :
    WFURL (cleanUrlCore strip u) := by
  obtain ⟨hvs, hvh, hhost, ⟨p0, hpath⟩, hpathc, hquery⟩ := hwf
  refine ⟨hvs, hvh, hhost, ?_, ?_, ?_⟩
  · exact cleanPath_starts hpath
  · intro c hc
    rcases mem_cleanPath hc with h | rfl
    · exact hpathc c h
    · exact ⟨by decide, by decide⟩
  · intro kv hkv
    exact hquery kv (List.mem_filter.mp hkv).1

theorem cleanUrlCore_idem (strip : List Str) (u : URLParts) :
    cleanUrlCore strip (cleanUrlCore strip u) = cleanUrlCore strip u := by
  apply URLParts.ext
  · rfl
  · rfl
  · exact cleanPath_idem u.path
  · show stripQuery strip (stripQuery strip u.query) = stripQuery strip u.query
    unfold stripQuery
    exact List.filter_eq_self.mpr (fun kv hkv => (List.mem_filter.mp hkv).2)
  · rfl

theorem cleanUrlWith_spec {strip : List Str} {s : Str} {u : URLParts}
    (hp : parseURL s = some u) :
    cleanUrlWith strip s = some (serializeURL (cleanUrlCore strip u)) ∧
    cleanUrlWith strip (serializeURL (cleanUrlCore strip u))
      = some (serializeURL (cleanUrlCore strip u)) := by
  have hwf : WFURL (cleanUrlCore strip u) := cleanUrlCore_wf (parseURL_wf hp)
  have hrt : parseURL (serializeURL (cleanUrlCore strip u))
      = some (cleanUrlCore strip u) := parseURL_serializeURL hwf rfl
  constructor
  · simp [cleanUrlWith, hp]
  · simp [cleanUrlWith, hrt, cleanUrlCore_idem]

theorem dropWhile_replicate_append (n : Nat) (l : Str) :
    (List.replicate n '/' ++ l).dropWhile (fun c => c == '/')
      = l.dropWhile (fun c => c == '/') := by
  induction n with
  | zero => simp
  | succ n ih => simp [List.replicate_succ, List.dropWhile_cons, ih]

theorem dropWhile_eq_self_of_head {l : Str} (h : l.head? ≠ some '/') :
    l.dropWhile (fun c => c == '/') = l := by
  cases l with
  | nil => rfl
  | cons c t =>
    rw [List.dropWhile_cons, if_neg]
    simp only [List.head?_cons, ne_eq, Option.some.injEq] at h
    simp [h]

theorem collapseTrailing_run {q : Str} {k : Nat} (h : q.getLast? ≠ some '/') :
    collapseTrailing (q ++ List.replicate (k + 1) '/') = q ++ ['/'] := by
  unfold collapseTrailing
  rw [List.reverse_append, List.reverse_replicate, dropWhile_replicate_append,
    dropWhile_eq_self_of_head (by rw [List.head?_reverse]; exact h),
    List.reverse_reverse]

theorem cleanPath_collapse {q : Str} {k : Nat} (hq : q.getLast? ≠ some '/') :
    cleanPath (q ++ List.replicate (k + 1) '/') = q ++ ['/'] := by
  by_cases he : q ++ List.replicate (k + 1) '/' = ['/']
  · have hlen := congrArg List.length he
    simp only [List.length_append, List.length_replicate, List.length_cons,
      List.length_nil] at hlen
    have hq0 : q = [] := List.length_eq_zero.mp (by omega)
    rw [cleanPath_neg (fun hcon => hcon.1 he), he, hq0]
    rfl
  · have hlast : (q ++ List.replicate (k + 1) '/').getLast? = some '/' := by
      rw [← List.head?_reverse, List.reverse_append, List.reverse_replicate]
      simp [List.replicate_succ]
    rw [cleanPath_pos ⟨he, hlast⟩, collapseTrailing_run hq]

/-- Claim C7 (amended): for every address accepted by the normalizer,
cleanUrl is idempotent; it removes exactly the query parameters whose key is
in the configured strip set, preserving all other query parameters and
their order; it leaves the scheme and host unchanged; and it preserves the
path except that a trailing run of slashes on a non-root path is collapsed
to a single slash (the fragment is always dropped). -/
theorem c7_normalizer :
    ∀ (strip : List Str) (s : Str) (u : URLParts), parseURL s = some u →
      (cleanUrlWith strip s = some (serializeURL (cleanUrlCore strip u)) ∧
       cleanUrlWith strip (serializeURL (cleanUrlCore strip u))
         = some (serializeURL (cleanUrlCore strip u))) ∧
      ((∀ kv ∈ (cleanUrlCore strip u).query, kv.1 ∉ strip) ∧
       (∀ kv, kv ∈ (cleanUrlCore strip u).query ↔ kv ∈ u.query ∧ kv.1 ∉ strip) ∧
       List.Sublist (cleanUrlCore strip u).query u.query) ∧
      ((cleanUrlCore strip u).scheme = u.scheme ∧
       (cleanUrlCore strip u).host = u.host) ∧
      ((u.path = ['/'] ∨ u.path.getLast? ≠ some '/') →
        (cleanUrlCore strip u).path = u.path) ∧
      (∀ (q : Str) (k : Nat), q.getLast? ≠ some '/' →
        u.path = q ++ List.replicate (k + 1) '/' →
        (cleanUrlCore strip u).path = q ++ ['/']) := by
  intro strip s u hp
  refine ⟨cleanUrlWith_spec hp, ⟨?_, ?_, ?_⟩, ⟨rfl, rfl⟩, ?_, ?_⟩
  · intro kv hkv
    have h := List.mem_filter.mp hkv
    simpa using h.2
  · intro kv
    constructor
    · intro hkv
      have h := List.mem_filter.mp hkv
      exact ⟨h.1, by simpa using h.2⟩
    · rintro ⟨h1, h2⟩
      exact List.mem_filter.mpr ⟨h1, by simpa using h2⟩
  · exact List.filter_sublist _
  · intro hcase
    show cleanPath u.path = u.path
    apply cleanPath_neg
    rcases hcase with h | h
    · exact fun hcon => hcon.1 h
    · exact fun hcon => h hcon.2
  · intro q k hq hpath
    show cleanPath u.path = q ++ ['/']
    rw [hpath]
    exact cleanPath_collapse hq

/-- Claim C7, counterexample to the claim as stated: cleanUrl does not
leave the path unchanged — a trailing run of slashes is collapsed, so the
address http://h/a// normalizes to http://h/a/ with a different path. -/
theorem c7_counterexample :
    cleanUrl "http://h/a//".data = some "http://h/a/".data ∧
    (parseURL "http://h/a//".data).map URLParts.path = some "/a//".data ∧
    (parseURL "http://h/a/".data).map URLParts.path = some "/a/".data ∧
    "/a/".data ≠ "/a//".data := by
  refine ⟨by decide, by decide, by decide, by decide⟩

/-- Claim C7, witness: the amended theorem applied to a concrete address
carrying one tracking parameter and one ordinary parameter. -/
theorem c7_witness :
    cleanUrlWith DEFAULT_STRIP_PARAMS "http://example.com/docs?utm_source=x&q=1".data
        = some "http://example.com/docs?q=1".data ∧
    cleanUrlWith DEFAULT_STRIP_PARAMS "http://example.com/docs?q=1".data
        = some "http://example.com/docs?q=1".data := by
  have h := c7_normalizer DEFAULT_STRIP_PARAMS
    ("http://example.com/docs?utm_source=x&q=1".data)
    { scheme := "http".data, host := "example.com".data, path := "/docs".data,
      query := [("utm_source".data, "x".data), ("q".data, "1".data)],
      frag := none }
    (by decide)
  have hser : serializeURL (cleanUrlCore DEFAULT_STRIP_PARAMS
      { scheme := "http".data, host := "example.com".data, path := "/docs".data,
        query := [("utm_source".data, "x".data), ("q".data, "1".data)],
        frag := none }) = "http://example.com/docs?q=1".data := by decide
  exact ⟨by rw [← hser]; exact h.1.1, by rw [← hser]; exact h.1.2⟩

/-- Claim C8: the call-site normalization composite (isHttpUrl guard, then
cleanUrl) fails with InvalidAddress exactly when the input does not parse
as an absolute http or https address; in particular relative inputs and
absolute inputs with another scheme are rejected, while valid http(s)
addresses are normalized. -/
theorem c8_invalid_address :
    (∀ s : Str, (∃ e, normalizeAddress s = Except.error e) ↔ isHttpUrl s = false) ∧
    (∀ s : Str, isHttpUrl s = true ↔
      ∃ u, parseURL s = some u ∧
        (lowerStr u.scheme = "http".data ∨ lowerStr u.scheme = "https".data)) ∧
    normalizeAddress "docs/page".data = Except.error AddrError.invalidAddress ∧
    normalizeAddress "/docs".data = Except.error AddrError.invalidAddress ∧
    normalizeAddress "ftp://host/x".data = Except.error AddrError.invalidAddress ∧
    normalizeAddress "mailto:user@host.com".data = Except.error AddrError.invalidAddress ∧
    normalizeAddress "https://example.com/docs".data
      = Except.ok "https://example.com/docs".data := by
  refine ⟨?_, ?_, by rfl, by rfl, by rfl, by rfl, by rfl⟩
  · intro s
    constructor
    · rintro ⟨e, he⟩
      by_contra hcon
      have hh : isHttpUrl s = true := by
        cases hhu : isHttpUrl s
        · exact absurd hhu hcon
        · rfl
      have hparse : ∃ u, parseURL s = some u := by
        unfold isHttpUrl at hh
        rcases hpu : parseURL s with _ | u
        · rw [hpu] at hh
          simp at hh
        · exact ⟨u, rfl⟩
      rcases hparse with ⟨u, hu⟩
      have : normalizeAddress s
          = Except.ok (serializeURL (cleanUrlCore DEFAULT_STRIP_PARAMS u)) := by
        unfold normalizeAddress
        rw [if_pos hh]
        have hcu : cleanUrl s
            = some (serializeURL (cleanUrlCore DEFAULT_STRIP_PARAMS u)) := by
          unfold cleanUrl cleanUrlWith
          rw [hu]
          rfl
        rw [hcu]
      rw [this] at he
      exact Except.noConfusion he
    · intro hh
      refine ⟨AddrError.invalidAddress, ?_⟩
      unfold normalizeAddress
      rw [if_neg (by simp [hh])]
  · intro s
    unfold isHttpUrl
    rcases hpu : parseURL s with _ | u
    · simp
    · constructor
      · intro hb
        refine ⟨u, rfl, ?_⟩
        rcases Bool.or_eq_true _ _ |>.mp hb with h | h
        · exact Or.inl (by simpa using h)
        · exact Or.inr (by simpa using h)
      · rintro ⟨v, hv, hs⟩
        rw [Option.some.injEq] at hv
        subst hv
        rcases hs with h | h
        · simp [h]
        · simp [h]

/-- Claim C8, witness: the equivalence applied at a concrete relative
address and a concrete valid address. -/
theorem c8_witness :
    (∃ e, normalizeAddress "docs/page".data = Except.error e) ∧
    (isHttpUrl "https://example.com/docs".data = true) := by
  exact ⟨(c8_invalid_address.1 ("docs/page".data)).mpr (by decide), by decide⟩

/-- Claim C4, counterexample to the claim as stated: when neither path
yields non-empty text, scrapeText does not raise any error — it returns
the empty string (there is no NoContent error in scrapeText; the empty
result is detected by the route, which answers 422 no_content). -/
theorem c4_counterexample :
    scrapeText c4CexEnv "http://example.com/docs".data = Except.ok [] := by
  rfl

/-- Claim C4 (amended): when the address is valid, the fast path fails or
reduces to fewer than 200 characters, and the rendering fallback succeeds
with a page whose visible text trims to nothing and whose markup cleans to
nothing, scrapeText returns the empty string successfully instead of
failing with a NoContent error; empty-content detection is left to the
callers. -/
theorem c4_scrape_empty :
    ∀ (env : ScrapeEnv) (rawUrl url : Str),
      isHttpUrl rawUrl = true → cleanUrl rawUrl = some url →
      (∀ h, env.httpHtml url = Except.ok h → (cleanText h).length < 200) →
      ∀ pg, env.render url = Except.ok pg →
        trim pg.visibleText = [] → cleanText pg.content = [] →
        scrapeText env rawUrl = Except.ok [] := by
  intro env rawUrl url hhttp hclean hshort pg hrender hvis hcontent
  have hbrowser : fetchViaBrowser env url = Except.ok [] := by
    unfold fetchViaBrowser
    rw [hrender]
    simp only [hvis]
    rw [if_neg (by simp)]
    rw [hcontent]
  have hne : rawUrl.isEmpty = false := by
    cases rawUrl with
    | nil => exact absurd hhttp (by decide)
    | cons c t => rfl
  have hcore : (match fetchViaHttp env url with
      | Except.ok text =>
        if text ≠ [] ∧ 200 ≤ text.length then Except.ok text
        else fetchViaBrowser env url
      | Except.error _ => fetchViaBrowser env url) = Except.ok [] := by
    rcases hfh : env.httpHtml url with e | html
    · rw [show fetchViaHttp env url = Except.error e by
        unfold fetchViaHttp; rw [hfh]; rfl]
      exact hbrowser
    · rw [show fetchViaHttp env url = Except.ok (cleanText html) by
        unfold fetchViaHttp; rw [hfh]; rfl]
      simp only
      rw [if_neg (by
        rintro ⟨-, hlen⟩
        exact absurd hlen (by have := hshort html hfh; omega))]
      exact hbrowser
  unfold scrapeText
  rw [if_neg (by simp [hne, hhttp]), hclean]
  exact hcore

/-- Claim C4, witness: the amended theorem applied to the concrete
environment with an empty rendered page. -/
theorem c4_witness :
    scrapeText c4Env "http://example.com/docs".data = Except.ok [] := by
  exact c4_scrape_empty c4Env ("http://example.com/docs".data)
    ("http://example.com/docs".data) (by decide) (by decide)
    (fun h hh => Except.noConfusion hh)
    { visibleText := [], content := [] } rfl rfl rfl

theorem ceilDiv_succ {D step : Nat} (hD : 0 < D) (hs : 0 < step) :
    (D + step - 1) / step = (D - step + step - 1) / step + 1 := by
  have h1 : D + step - 1 = (D - 1) + step := by omega
  rw [h1, Nat.add_div_right _ hs]
  by_cases hle : D ≤ step
  · have h0 : D - step = 0 := by omega
    rw [h0]
    have h2 : (D - 1) / step = 0 := Nat.div_eq_of_lt (by omega)
    have h3 : (0 + step - 1) / step = 0 := Nat.div_eq_of_lt (by omega)
    rw [h2, h3]
  · have h4 : D - step + step - 1 = (D - step - 1) + step := by omega
    rw [h4, Nat.add_div_right _ hs]
    have h5 : D - 1 = (D - step - 1) + step := by omega
    rw [h5, Nat.add_div_right _ hs]

theorem chunkTextGo_spec {text : Str} {maxChars step : Nat} (hs : 0 < step) :
    ∀ fuel i, text.length ≤ i + fuel * step →
      chunkTextGo text maxChars step fuel i
        = ((List.range' i ((text.length - i + step - 1) / step) step).map
            (fun j => trim ((text.drop j).take maxChars))).filter
              (fun p => !p.isEmpty) := by
  intro fuel
  induction fuel with
  | zero =>
    intro i hL
    have h0 : text.length - i = 0 := by omega
    rw [h0]
    have hq : (0 + step - 1) / step = 0 := Nat.div_eq_of_lt (by omega)
    rw [hq]
    rfl
  | succ fuel ih =>
    intro i hL
    by_cases hi : i < text.length
    · have hD : 0 < text.length - i := by omega
      have hcount := ceilDiv_succ hD hs
      have hsub : text.length - i - step = text.length - (i + step) := by omega
      rw [hcount, hsub, List.range'_succ, List.map_cons, List.filter_cons]
      have hrec := ih (i + step) (by
        have : i + (fuel + 1) * step = i + step + fuel * step := by ring
        omega)
      show chunkTextGo text maxChars step (fuel + 1) i = _
      rw [chunkTextGo, if_pos hi, hrec]
      by_cases hp : (trim ((text.drop i).take maxChars)).isEmpty
      · simp [hp]
      · simp [hp]
    · have h0 : text.length - i = 0 := by omega
      rw [chunkTextGo, if_neg hi, h0]
      have hq : (0 + step - 1) / step = 0 := Nat.div_eq_of_lt (by omega)
      rw [hq]
      rfl

/-- Claim C5 (amended): for overlap < maxChars the Chunker terminates and
emits, in order, the trimmed windows of size maxChars taken at offsets
advancing by maxChars - overlap, discarding windows that trim to empty;
for any two consecutive window offsets, the length-overlap suffix region
of the earlier untrimmed window coincides with the length-overlap prefix
region of the later untrimmed window, and when the earlier window is full
that shared region has exactly overlap characters.  (After trimming and
discarding, consecutive emitted chunks can share fewer than overlap
characters of source text.) -/
theorem c5_chunker :
    ∀ (text : Str) (maxChars overlap : Nat), overlap < maxChars →
      (chunkText text maxChars overlap
        = ((List.range' 0
              ((text.length + (maxChars - overlap) - 1) / (maxChars - overlap))
              (maxChars - overlap)).map
            (fun j => trim ((text.drop j).take maxChars))).filter
              (fun p => !p.isEmpty)) ∧
      (∀ i : Nat,
        ((text.drop i).take maxChars).drop (maxChars - overlap)
          = ((text.drop (i + (maxChars - overlap))).take maxChars).take overlap ∧
        (i + maxChars ≤ text.length →
          (((text.drop (i + (maxChars - overlap))).take maxChars).take overlap).length
            = overlap)) := by
  intro text maxChars overlap h
  have hs : 0 < maxChars - overlap := by omega
  constructor
  · unfold chunkText
    rw [if_pos h]
    have := @chunkTextGo_spec text maxChars (maxChars - overlap) hs text.length 0
      (by have := Nat.le_mul_of_pos_right text.length hs; omega)
    rw [this]
    have h0 : text.length - 0 = text.length := by omega
    rw [h0]
  · intro i
    constructor
    · rw [List.drop_take, List.drop_drop, List.take_take]
      have h1 : maxChars - (maxChars - overlap) = overlap := by omega
      have h2 : min overlap maxChars = overlap := Nat.min_eq_left (by omega)
      rw [h1, h2, Nat.add_comm i (maxChars - overlap), Nat.add_comm]
    · intro hfull
      rw [List.take_take, List.length_take, List.length_drop]
      have h2 : min overlap maxChars = overlap := Nat.min_eq_left (by omega)
      rw [h2]
      omega

/-- Claim C5, counterexample to the claim as stated: chunking the text
"a b" with maxChars 2 and overlap 1 emits the chunks a, b, b; the first
two are consecutive and the second is not the final chunk, yet they share
no character at all — the length-1 suffix of the first is a while the
length-1 prefix of the second is b — because trimming removed the
boundary whitespace, so consecutive emitted chunks do not overlap by
exactly overlap characters of source text. -/
theorem c5_counterexample :
    chunkText "a b".data 2 1 = [['a'], ['b'], ['b']] ∧
    List.drop (List.length ['a'] - 1) ['a'] = ['a'] ∧
    List.take 1 ['b'] = ['b'] ∧
    (['a'] : Str) ≠ ['b'] := by
  refine ⟨by decide, by decide, by decide, by decide⟩

/-- Claim C5, witness: the amended theorem applied to a concrete text. -/
theorem c5_witness :
    chunkText "hello world".data 4 1
      = ((List.range' 0 (("hello world".data.length + 3 - 1) / 3) 3).map
          (fun j => trim (("hello world".data.drop j).take 4))).filter
            (fun p => !p.isEmpty) ∧
    chunkText "hello world".data 4 1
      = ["hell".data, "lo w".data, "worl".data, "ld".data] := by
  exact ⟨(c5_chunker ("hello world".data) 4 1 (by decide)).1, by decide⟩

/-- Claim C6: withRetry with tries = 3 invokes an always-failing operation
exactly 3 times and propagates the error of the final attempt; on an
operation that fails twice and then succeeds it returns the success result
(also after exactly 3 invocations). -/
theorem c6_withRetry :
    (∀ (ε α : Type) (op : Nat → Except ε α) (e : Nat → ε),
        (∀ n, op n = Except.error (e n)) →
        withRetry op 3 = (some (Except.error (e 3)), 3)) ∧
    (∀ (ε α : Type) (op : Nat → Except ε α) (e1 e2 : ε) (v : α),
        op 1 = Except.error e1 → op 2 = Except.error e2 →
        op 3 = Except.ok v →
        withRetry op 3 = (some (Except.ok v), 3)) := by
  constructor
  · intro ε α op e h
    simp [withRetry, withRetryGo, h 1, h 2, h 3]
  · intro ε α op e1 e2 v h1 h2 h3
    simp [withRetry, withRetryGo, h1, h2, h3]

/-- Claim C6, witness: the theorem applied to two concrete operations. -/
theorem c6_witness :
    withRetry c6AlwaysFails 3 = (some (Except.error "boom"), 3) ∧
    withRetry c6ThirdTime 3 = (some (Except.ok 7), 3) := by
  exact ⟨c6_withRetry.1 String Nat c6AlwaysFails (fun _ => "boom") (fun _ => rfl),
    c6_withRetry.2 String Nat c6ThirdTime "boom" "boom" 7 rfl rfl rfl⟩

/-- Claim C9, counterexample to the claim as stated: the default
baseDelayMs of the retry utility is 250, not 300 (300 is the value the
Vector Store Writer passes explicitly at its call sites). -/
theorem c9_counterexample :
    withRetryDefaults.baseDelayMs = 250 ∧ withRetryDefaults.baseDelayMs ≠ 300 := by
  exact ⟨rfl, by norm_num [withRetryDefaults]⟩

/-- Claim C9 (amended): the retry utility defaults are tries = 3,
baseDelayMs = 250 (the Vector Store Writer call sites pass 300 explicitly)
and jitter enabled; between failed attempts the delay is
baseDelayMs * 2^(attempt-1) scaled by a jitter factor in [0.8, 1.2) when
jitter is enabled, and exactly the backoff when it is disabled. -/
theorem c9_retry_defaults :
    (withRetryDefaults.tries = 3 ∧ withRetryDefaults.baseDelayMs = 250 ∧
     withRetryDefaults.jitter = true) ∧
    (∀ (base : ℚ) (attempt : Nat) (r : ℚ), 0 ≤ r → r < 1 → 0 < base →
      backoffDelay base attempt true r
        = base * 2 ^ (attempt - 1) * (4 / 5 + r * (2 / 5)) ∧
      (4 / 5) * (base * 2 ^ (attempt - 1)) ≤ backoffDelay base attempt true r ∧
      backoffDelay base attempt true r < (6 / 5) * (base * 2 ^ (attempt - 1)) ∧
      backoffDelay base attempt false r = base * 2 ^ (attempt - 1)) := by
  refine ⟨⟨rfl, rfl, rfl⟩, ?_⟩
  intro base attempt r hr0 hr1 hb
  have hB : (0 : ℚ) < base * 2 ^ (attempt - 1) :=
    mul_pos hb (pow_pos (by norm_num) _)
  refine ⟨rfl, ?_, ?_, rfl⟩
  · rw [show backoffDelay base attempt true r
        = base * 2 ^ (attempt - 1) * (4 / 5 + r * (2 / 5)) from rfl]
    nlinarith [mul_nonneg (le_of_lt hB) hr0]
  · rw [show backoffDelay base attempt true r
        = base * 2 ^ (attempt - 1) * (4 / 5 + r * (2 / 5)) from rfl]
    nlinarith [mul_pos hB (by linarith : (0 : ℚ) < 1 - r)]

/-- Claim C9, witness: the amended theorem applied at base 250, attempt 2
and jitter sample one half. -/
theorem c9_witness :
    backoffDelay 250 2 true (1 / 2) = 250 * 2 ^ 1 * (4 / 5 + (1 / 2) * (2 / 5)) ∧
    (4 / 5 : ℚ) * (250 * 2 ^ 1) ≤ backoffDelay 250 2 true (1 / 2) ∧
    backoffDelay 250 2 true (1 / 2) < (6 / 5) * (250 * 2 ^ 1) ∧
    backoffDelay 250 2 false (1 / 2) = 250 * 2 ^ 1 := by
  exact c9_retry_defaults.2 250 2 (1 / 2) (by norm_num) (by norm_num) (by norm_num)

theorem chunkArrGo_flatten {α : Type} {size : Nat} (hs : 0 < size) :
    ∀ (fuel : Nat) (arr : List α), arr.length ≤ fuel →
      (chunkArrGo size fuel arr).flatten = arr := by
  intro fuel
  induction fuel with
  | zero =>
    intro arr h
    have : arr = [] := List.length_eq_zero.mp (Nat.le_zero.mp h)
    subst this
    rfl
  | succ fuel ih =>
    intro arr h
    cases arr with
    | nil => rfl
    | cons x xs =>
      rw [show chunkArrGo size (fuel + 1) (x :: xs)
          = (x :: xs).take size :: chunkArrGo size fuel ((x :: xs).drop size) from rfl]
      rw [List.flatten_cons]
      rw [ih ((x :: xs).drop size) (by
        rw [List.length_drop]
        simp only [List.length_cons] at h ⊢
        omega)]
      exact List.take_append_drop size (x :: xs)

theorem chunkArrGo_sizes {α : Type} {size fuel : Nat} {arr : List α} {b : List α}
    (hb : b ∈ chunkArrGo size fuel arr) : b.length ≤ size := by
  induction fuel generalizing arr with
  | zero => simp [chunkArrGo] at hb
  | succ fuel ih =>
    cases arr with
    | nil => simp [chunkArrGo] at hb
    | cons x xs =>
      rw [show chunkArrGo size (fuel + 1) (x :: xs)
          = (x :: xs).take size :: chunkArrGo size fuel ((x :: xs).drop size) from rfl] at hb
      rcases List.mem_cons.mp hb with rfl | hb
      · simp [List.length_take_le size (x :: xs)]
      · exact ih hb

theorem findIdx?_eq_none {α : Type} {p : α → Bool} {l : List α}
    (h : ∀ x ∈ l, p x = false) : l.findIdx? p = none :=
  List.findIdx?_eq_none_iff.mpr h

theorem withRetry_batch_ok {env : UpsertEnv} {bi : Nat}
    (h : ∀ a, env.attemptOk bi a = true) :
    (withRetry (batchAttempt env bi) 3).1 = some (Except.ok ()) := by
  simp [withRetry, withRetryGo, batchAttempt, h 1]

theorem withRetry_batch_fail {env : UpsertEnv} {bi : Nat}
    (h : ∀ a, env.attemptOk bi a = false) :
    (withRetry (batchAttempt env bi) 3).1
      = some (Except.error "upsert failed".data) := by
  simp [withRetry, withRetryGo, batchAttempt, h 1, h 2, h 3]

theorem upsertGo_all_ok {α : Type} {env : UpsertEnv}
    (h : ∀ bi a, env.attemptOk bi a = true) :
    ∀ (batches : List (List (PVector α))) (bi total : Nat),
      upsertGo env batches bi total
        = Except.ok (total + (batches.map List.length).sum) := by
  intro batches
  induction batches with
  | nil => intro bi total; simp [upsertGo]
  | cons b rest ih =>
    intro bi total
    rw [show upsertGo env (b :: rest) bi total
        = (match (withRetry (batchAttempt env bi) 3).1 with
           | some (Except.ok _) => upsertGo env rest (bi + 1) (total + b.length)
           | some (Except.error e) => Except.error (UpsertErr.remote e)
           | none => Except.error (UpsertErr.remote "upsert failed".data)) from rfl]
    rw [withRetry_batch_ok (fun a => h bi a)]
    rw [ih (bi + 1) (total + b.length)]
    simp only [List.map_cons, List.sum_cons]
    congr 1
    omega

theorem upsertGo_fail_at {α : Type} {env : UpsertEnv} :
    ∀ (k : Nat) (batches : List (List (PVector α))) (bi total : Nat),
      k < batches.length →
      (∀ j a, j < k → env.attemptOk (bi + j) a = true) →
      (∀ a, env.attemptOk (bi + k) a = false) →
      upsertGo env batches bi total
        = Except.error (UpsertErr.remote "upsert failed".data) := by
  intro k
  induction k with
  | zero =>
    intro batches bi total hlen hok hfail
    cases batches with
    | nil => simp at hlen
    | cons b rest =>
      rw [show upsertGo env (b :: rest) bi total
          = (match (withRetry (batchAttempt env bi) 3).1 with
             | some (Except.ok _) => upsertGo env rest (bi + 1) (total + b.length)
             | some (Except.error e) => Except.error (UpsertErr.remote e)
             | none => Except.error (UpsertErr.remote "upsert failed".data)) from rfl]
      rw [withRetry_batch_fail (fun a => by simpa using hfail a)]
  | succ k ih =>
    intro batches bi total hlen hok hfail
    cases batches with
    | nil => simp at hlen
    | cons b rest =>
      rw [show upsertGo env (b :: rest) bi total
          = (match (withRetry (batchAttempt env bi) 3).1 with
             | some (Except.ok _) => upsertGo env rest (bi + 1) (total + b.length)
             | some (Except.error e) => Except.error (UpsertErr.remote e)
             | none => Except.error (UpsertErr.remote "upsert failed".data)) from rfl]
      rw [withRetry_batch_ok (fun a => by simpa using hok 0 a (Nat.succ_pos k))]
      refine ih rest (bi + 1) (total + b.length) (by simpa using hlen) ?_ ?_
      · intro j a hj
        have := hok (j + 1) a (by omega)
        simpa [Nat.add_assoc, Nat.add_comm 1 j] using this
      · intro a
        have := hfail a
        simpa [Nat.add_assoc, Nat.add_comm 1 k] using this

set_option maxRecDepth 10000 in
/-- Claim C2 (amended): the writer splits its input into consecutive
batches of at most 100 vectors whose concatenation is the input (250
vectors give batch sizes 100, 100, 50); when every batch succeeds the call
returns a count equal to the number of input vectors; when a later batch
exhausts its three attempts, the call propagates that batch's error — no
count is reported (the batches committed before the failure remain
committed in the store; nothing is rolled back). -/
theorem c2_upsert :
    (∀ (α : Type) (vectors : List (PVector α)),
        (chunkArr vectors 100).flatten = vectors ∧
        ∀ b ∈ chunkArr vectors 100, b.length ≤ 100) ∧
    ((chunkArr (c2Vectors 250) 100).map List.length = [100, 100, 50]) ∧
    (∀ (α : Type) (env : UpsertEnv) (vectors : List (PVector α)),
        (∀ v ∈ vectors, v.id ≠ [] ∧ v.values ≠ []) →
        (∀ bi a, env.attemptOk bi a = true) →
        upsertVectors env vectors = Except.ok vectors.length) ∧
    (∀ (α : Type) (env : UpsertEnv) (vectors : List (PVector α)) (k : Nat),
        (∀ v ∈ vectors, v.id ≠ [] ∧ v.values ≠ []) →
        k < (chunkArr vectors 100).length →
        (∀ bi a, bi < k → env.attemptOk bi a = true) →
        (∀ a, env.attemptOk k a = false) →
        upsertVectors env vectors
          = Except.error (UpsertErr.remote "upsert failed".data)) := by
  have hjoin : ∀ (α : Type) (vectors : List (PVector α)),
      (chunkArr vectors 100).flatten = vectors := by
    intro α vectors
    unfold chunkArr
    rw [if_pos (by norm_num)]
    exact chunkArrGo_flatten (by norm_num) vectors.length vectors le_rfl
  have hvalid : ∀ (α : Type) (vectors : List (PVector α)),
      (∀ v ∈ vectors, v.id ≠ [] ∧ v.values ≠ []) →
      vectors.findIdx? (fun v => v.id.isEmpty || v.values.isEmpty) = none := by
    intro α vectors hv
    refine findIdx?_eq_none (fun v hmem => ?_)
    have := hv v hmem
    rcases hid : v.id with _ | _
    · exact absurd hid this.1
    · rcases hval : v.values with _ | _
      · exact absurd hval this.2
      · simp [hid, hval]
  refine ⟨?_, by decide, ?_, ?_⟩
  · intro α vectors
    refine ⟨hjoin α vectors, fun b hb => ?_⟩
    unfold chunkArr at hb
    rw [if_pos (by norm_num)] at hb
    exact chunkArrGo_sizes hb
  · intro α env vectors hv hok
    unfold upsertVectors
    by_cases hne : vectors.isEmpty
    · rw [if_pos hne]
      have : vectors = [] := by simpa using hne
      rw [this]
      rfl
    · rw [if_neg hne, hvalid α vectors hv, upsertGo_all_ok hok]
      rw [show ((chunkArr vectors 100).map List.length).sum
          = ((chunkArr vectors 100).flatten).length by rw [List.length_flatten]]
      rw [hjoin α vectors]
      simp
  · intro α env vectors k hv hk hok hfail
    unfold upsertVectors
    have hne : vectors.isEmpty = false := by
      rcases hvec : vectors with _ | _
      · rw [hvec] at hk
        simp [chunkArr, chunkArrGo] at hk
      · rfl
    rw [if_neg (by simp [hne]), hvalid α vectors hv]
    exact upsertGo_fail_at k (chunkArr vectors 100) 0 0 hk
      (fun j a hj => by simpa using hok j a hj)
      (fun a => by simpa using hfail a)

set_option maxRecDepth 10000 in
/-- Claim C2, counterexample to the claim as stated: with 150 valid
vectors, a store accepting batch 0 and rejecting batch 1 at every attempt,
upsertVectors propagates the batch error; it does not report the
accumulated count 100 — indeed it reports no count at all. -/
theorem c2_counterexample :
    upsertVectors c2FailEnv (c2Vectors 150)
      = Except.error (UpsertErr.remote "upsert failed".data) ∧
    ∀ n, upsertVectors c2FailEnv (c2Vectors 150) ≠ Except.ok n := by
  have h : upsertVectors c2FailEnv (c2Vectors 150)
      = Except.error (UpsertErr.remote "upsert failed".data) := by rfl
  exact ⟨h, fun n hn => Except.noConfusion (h.symm.trans hn)⟩

set_option maxRecDepth 10000 in
/-- Claim C2, witness: the amended theorem applied to 250 vectors with an
always-accepting store and to 150 vectors with a store whose second batch
always fails. -/
theorem c2_witness :
    upsertVectors c2AllOkEnv (c2Vectors 250) = Except.ok 250 ∧
    upsertVectors c2AllOkEnv (c2Vectors 150)
      ≠ Except.error (UpsertErr.remote "upsert failed".data) ∧
    upsertVectors c2FailEnv (c2Vectors 150)
      = Except.error (UpsertErr.remote "upsert failed".data) := by
  have hvalid : ∀ n : Nat, ∀ v ∈ c2Vectors n, v.id ≠ [] ∧ v.values ≠ [] := by
    intro n v hv
    rw [List.eq_of_mem_replicate hv]
    exact ⟨by simp, by simp⟩
  refine ⟨?_, ?_, ?_⟩
  · have h := c2_upsert.2.2.1 Nat c2AllOkEnv (c2Vectors 250)
      (hvalid 250) (fun _ _ => rfl)
    rw [h]
    rfl
  · have h := c2_upsert.2.2.1 Nat c2AllOkEnv (c2Vectors 150)
      (hvalid 150) (fun _ _ => rfl)
    rw [h]
    intro hcon
    exact Except.noConfusion hcon
  · refine c2_upsert.2.2.2 Nat c2FailEnv (c2Vectors 150) 1
      (hvalid 150) (by decide) ?_ ?_
    · intro bi a hbi
      have : bi = 0 := by omega
      rw [this]
      rfl
    · intro a
      rfl

/- ### Step characterization -/

theorem crawlStep_spec (env : CrawlEnv) (cfg : CrawlConfig) (s : CrawlState)
    {t : CrawlTask} {rest : List CrawlTask} (hq : s.q = t :: rest) :
    ((t.url ∈ s.seen ∨ cfg.maxDepth < t.depth) ∧
      crawlStep env cfg s = { s with q := rest }) ∨
    (¬(t.url ∈ s.seen ∨ cfg.maxDepth < t.depth) ∧
      ∃ C : List CrawlTask, (∀ x ∈ C, x.depth = t.depth + 1) ∧
      ((env.fetchHtml t.url = none ∧ C = [] ∧
          crawlStep env cfg s
            = { s with
                  q := rest
                  seen := t.url :: s.seen
                  processed := s.processed ++ [t] }) ∨
       ((env.fetchHtml t.url).isSome ∧ env.scrape t.url = none ∧
          crawlStep env cfg s
            = { s with
                  q := rest ++ C
                  seen := t.url :: s.seen
                  processed := s.processed ++ [t] }) ∨
       ((env.fetchHtml t.url).isSome ∧ (env.scrape t.url).isSome ∧
          ∃ upN : Nat × List (Option Str),
            (upN.2 = [] ∨ upN.2 = [effectiveNamespace cfg.callerNs cfg.envNs]) ∧
            crawlStep env cfg s
              = { q := rest ++ C, seen := t.url :: s.seen,
                  crawled := s.crawled + 1, upserted := s.upserted + upN.1,
                  processed := s.processed ++ [t],
                  counted := s.counted ++ [t.url],
                  sleeps := s.sleeps + (if cfg.delayMs = 0 then 0 else 1),
                  nsUsed := s.nsUsed ++ upN.2 }))) := by
  by_cases hd : t.url ∈ s.seen ∨ cfg.maxDepth < t.depth
  · left
    refine ⟨hd, ?_⟩
    unfold crawlStep
    rw [hq]
    simp only [if_pos hd]
  · right
    refine ⟨hd, ?_⟩
    rcases hf : env.fetchHtml t.url with _ | html
    · refine ⟨[], by simp, Or.inl ⟨rfl, rfl, ?_⟩⟩
      unfold crawlStep
      rw [hq]
      simp only [if_neg hd, hf]
    · refine ⟨((env.discoverLinks html t.url).filter
          (fun l => decide (l ∉ t.url :: s.seen))).map
            (fun l => ({ url := l, depth := t.depth + 1 } : CrawlTask)), ?_, ?_⟩
      · intro x hx
        rcases List.mem_map.mp hx with ⟨l, _, rfl⟩
        rfl
      · rcases hs : env.scrape t.url with _ | text
        · refine Or.inr (Or.inl ⟨by simp [hf], rfl, ?_⟩)
          unfold crawlStep
          rw [hq]
          simp only [if_neg hd, hf, hs]
        · refine Or.inr (Or.inr ⟨by simp [hf], by simp [hs], ?_⟩)
          by_cases hch : (chunkText text 1200 150).isEmpty
          · refine ⟨(0, []), Or.inl rfl, ?_⟩
            unfold crawlStep
            rw [hq]
            simp only [if_neg hd, hf, hs, hch]
            rfl
          · rcases hu : env.embedUpsert t.url (chunkText text 1200 150) with _ | n
            · refine ⟨(0, [effectiveNamespace cfg.callerNs cfg.envNs]),
                Or.inr rfl, ?_⟩
              unfold crawlStep
              rw [hq]
              simp only [if_neg hd, hf, hs, hch, hu]
              rfl
            · refine ⟨(n, [effectiveNamespace cfg.callerNs cfg.envNs]),
                Or.inr rfl, ?_⟩
              unfold crawlStep
              rw [hq]
              simp only [if_neg hd, hf, hs, hch, hu]
              rfl

theorem crawlStep_nil {env : CrawlEnv} {cfg : CrawlConfig} {s : CrawlState}
    (hq : s.q = []) : crawlStep env cfg s = s := by
  unfold crawlStep
  rw [hq]

theorem crawlRun_zero (env : CrawlEnv) (cfg : CrawlConfig) (s : CrawlState) :
    crawlRun env cfg 0 s = s := rfl

theorem crawlRun_succ (env : CrawlEnv) (cfg : CrawlConfig) (n : Nat) (s : CrawlState) :
    crawlRun env cfg (n + 1) s
      = if crawlDone cfg s then s else crawlRun env cfg n (crawlStep env cfg s) := rfl

theorem crawlStep_inv {env : CrawlEnv} {cfg : CrawlConfig} {s : CrawlState}
    (h : StateInv env cfg s) (hnd : ¬ crawlDone cfg s) :
    StateInv env cfg (crawlStep env cfg s) := by
  obtain ⟨h1, h2, h3, h4, h5, h6, h7, h8⟩ := h
  have hcr : s.crawled < cfg.maxPages := by
    unfold crawlDone at hnd
    push_neg at hnd
    omega
  rcases hq : s.q with _ | ⟨t, rest⟩
  · rw [crawlStep_nil hq]
    exact ⟨h1, h2, h3, h4, h5, h6, h7, h8⟩
  · rcases crawlStep_spec env cfg s hq with ⟨hd, heq⟩ | ⟨hd, C, hC, hcase⟩
    · rw [heq]
      exact ⟨h1, h2, h3, h4, h5, h6, h7, h8⟩
    · push_neg at hd
      obtain ⟨hseen, hdepth⟩ := hd
      have hnotmem : t.url ∉ s.processed.map CrawlTask.url := by
        intro hmem
        rcases List.mem_map.mp hmem with ⟨p, hp, hpu⟩
        exact hseen (hpu ▸ h4 p hp)
      have hdep : ∀ x ∈ s.processed ++ [t], x.depth ≤ cfg.maxDepth := by
        intro x hx
        rcases List.mem_append.mp hx with hx | hx
        · exact h2 x hx
        · rw [List.mem_singleton.mp hx]
          omega
      have hnodup : ((s.processed ++ [t]).map CrawlTask.url).Nodup := by
        rw [List.map_append]
        refine List.Nodup.append h3 (by simp) ?_
        intro x hx hx2
        simp only [List.map_cons, List.map_nil, List.mem_singleton] at hx2
        exact hnotmem (hx2 ▸ hx)
      have hsub : ∀ x ∈ s.processed ++ [t], x.url ∈ t.url :: s.seen := by
        intro x hx
        rcases List.mem_append.mp hx with hx | hx
        · exact List.mem_cons_of_mem _ (h4 x hx)
        · rw [List.mem_singleton.mp hx]
          exact List.mem_cons_self _ _
      rcases hcase with ⟨hf, hC0, heq⟩ | ⟨hf, hs, heq⟩ | ⟨hf, hs, upN, hupN, heq⟩
      · rw [heq]
        refine ⟨h1, hdep, hnodup, hsub, ?_, h6, h7, h8⟩
        rw [List.filter_append]
        have hone : (List.filter (fun x =>
            (env.fetchHtml x.url).isSome && (env.scrape x.url).isSome) [t]) = [] := by
          simp [List.filter, hf]
        rw [hone, List.append_nil]
        exact h5
      · rw [heq]
        refine ⟨h1, hdep, hnodup, hsub, ?_, h6, h7, h8⟩
        rw [List.filter_append]
        have hone : (List.filter (fun x =>
            (env.fetchHtml x.url).isSome && (env.scrape x.url).isSome) [t]) = [] := by
          simp [List.filter, hs]
        rw [hone, List.append_nil]
        exact h5
      · rw [heq]
        refine ⟨by show s.crawled + 1 ≤ cfg.maxPages; omega, hdep, hnodup, hsub, ?_, ?_, ?_, ?_⟩
        · rw [List.filter_append]
          have hone : (List.filter (fun x =>
              (env.fetchHtml x.url).isSome && (env.scrape x.url).isSome) [t]) = [t] := by
            simp [List.filter, hf, hs]
          rw [hone, List.map_append, ← h5]
          rfl
        · simp only [List.length_append, List.length_singleton]
          omega
        · by_cases hdel : cfg.delayMs = 0
          · simp only [hdel, if_pos rfl] at h7 ⊢
            simp [h7]
          · simp only [if_neg hdel] at h7 ⊢
            simp [h7, hdel]
        · intro x hx
          rcases List.mem_append.mp hx with hx | hx
          · exact h8 x hx
          · rcases hupN with hu | hu
            · rw [hu] at hx
              simp at hx
            · rw [hu] at hx
              rw [List.mem_singleton.mp hx]

theorem crawlRun_inv {env : CrawlEnv} {cfg : CrawlConfig} :
    ∀ (n : Nat) (s : CrawlState), StateInv env cfg s →
      StateInv env cfg (crawlRun env cfg n s) := by
  intro n
  induction n with
  | zero => exact fun s h => h
  | succ n ih =>
    intro s h
    by_cases hd : crawlDone cfg s
    · rw [crawlRun_succ, if_pos hd]
      exact h
    · rw [crawlRun_succ, if_neg hd]
      exact ih _ (crawlStep_inv h hd)

theorem initState_inv (env : CrawlEnv) (cfg : CrawlConfig) (seed : Str) :
    StateInv env cfg (initState seed) := by
  refine ⟨Nat.zero_le _, by simp [initState], by simp [initState],
    by simp [initState], rfl, rfl, ?_, by simp [initState]⟩
  show (0 : Nat) = if cfg.delayMs = 0 then 0 else 0
  split <;> rfl

/- ### Termination of the crawl loop -/

theorem crawlDone_run {env : CrawlEnv} {cfg : CrawlConfig} {s : CrawlState}
    (h : crawlDone cfg s) : ∀ n, crawlRun env cfg n s = s := by
  intro n
  cases n with
  | zero => rfl
  | succ n => rw [crawlRun_succ, if_pos h]

theorem crawlRun_add {env : CrawlEnv} {cfg : CrawlConfig} :
    ∀ (n m : Nat) (s : CrawlState),
      crawlRun env cfg (n + m) s = crawlRun env cfg m (crawlRun env cfg n s) := by
  intro n
  induction n with
  | zero =>
    intro m s
    rw [Nat.zero_add]
    rfl
  | succ n ih =>
    intro m s
    by_cases hd : crawlDone cfg s
    · rw [crawlDone_run hd (n + 1 + m), crawlDone_run hd (n + 1), crawlDone_run hd m]
    · have hl : n + 1 + m = (n + m) + 1 := by omega
      rw [hl, crawlRun_succ, if_neg hd, crawlRun_succ, if_neg hd]
      exact ih m (crawlStep env cfg s)

theorem crawl_drain_deep {env : CrawlEnv} {cfg : CrawlConfig} :
    ∀ (q : List CrawlTask) (s : CrawlState), s.q = q →
      (∀ t ∈ q, cfg.maxDepth < t.depth) →
      ∃ n, crawlDone cfg (crawlRun env cfg n s) := by
  intro q
  induction q with
  | nil => exact fun s hq _ => ⟨0, Or.inl hq⟩
  | cons t rest ih =>
    intro s hq hdeep
    by_cases hd : crawlDone cfg s
    · exact ⟨0, hd⟩
    · rcases crawlStep_spec env cfg s hq with ⟨_, heq⟩ | ⟨hcon, _⟩
      · have hq' : (crawlStep env cfg s).q = rest := by rw [heq]
        rcases ih (crawlStep env cfg s) hq'
            (fun x hx => hdeep x (List.mem_cons_of_mem t hx)) with ⟨n, hn⟩
        refine ⟨n + 1, ?_⟩
        rw [crawlRun_succ, if_neg hd]
        exact hn
      · exact absurd (Or.inr (hdeep t (List.mem_cons_self t rest))) hcon

theorem crawl_level {env : CrawlEnv} {cfg : CrawlConfig} :
    ∀ (A B : List CrawlTask) (s : CrawlState) (δ : Nat),
      s.q = A ++ B → (∀ t ∈ A, t.depth = δ) → (∀ t ∈ B, t.depth = δ + 1) →
      ∃ n, crawlDone cfg (crawlRun env cfg n s) ∨
        (∀ t ∈ (crawlRun env cfg n s).q, t.depth = δ + 1) := by
  intro A
  induction A with
  | nil =>
    intro B s δ hq hA hB
    exact ⟨0, Or.inr (fun t ht => hB t (by rw [← List.nil_append B, ← hq]; exact ht))⟩
  | cons t A' ih =>
    intro B s δ hq hA hB
    by_cases hd : crawlDone cfg s
    · exact ⟨0, Or.inl hd⟩
    · have hq1 : s.q = t :: (A' ++ B) := by rw [hq]; rfl
      have hstep : ∃ B', (crawlStep env cfg s).q = A' ++ B' ∧
          ∀ x ∈ B', x.depth = δ + 1 := by
        rcases crawlStep_spec env cfg s hq1 with ⟨_, heq⟩ |
            ⟨_, C, hC, ⟨_, hC0, heq⟩ | ⟨_, _, heq⟩ | ⟨_, _, _, _, heq⟩⟩
        · exact ⟨B, by rw [heq], hB⟩
        · exact ⟨B, by rw [heq], hB⟩
        · refine ⟨B ++ C, by rw [heq]; simp, ?_⟩
          intro x hx
          rcases List.mem_append.mp hx with hx | hx
          · exact hB x hx
          · rw [hC x hx, hA t (List.mem_cons_self t A')]
        · refine ⟨B ++ C, by rw [heq]; simp, ?_⟩
          intro x hx
          rcases List.mem_append.mp hx with hx | hx
          · exact hB x hx
          · rw [hC x hx, hA t (List.mem_cons_self t A')]
      rcases hstep with ⟨B', hq', hB'⟩
      rcases ih B' (crawlStep env cfg s) δ hq'
          (fun x hx => hA x (List.mem_cons_of_mem t hx)) hB' with ⟨n, hn⟩
      refine ⟨n + 1, ?_⟩
      rw [crawlRun_succ, if_neg hd]
      exact hn

theorem crawl_countdown {env : CrawlEnv} {cfg : CrawlConfig} :
    ∀ (k δ : Nat) (s : CrawlState),
      (∀ t ∈ s.q, t.depth = δ) → cfg.maxDepth + 1 ≤ δ + k →
      ∃ n, crawlDone cfg (crawlRun env cfg n s) := by
  intro k
  induction k with
  | zero =>
    intro δ s hδ hk
    exact crawl_drain_deep s.q s rfl (fun t ht => by rw [hδ t ht]; omega)
  | succ k ih =>
    intro δ s hδ hk
    by_cases hdeep : cfg.maxDepth < δ
    · exact crawl_drain_deep s.q s rfl (fun t ht => by rw [hδ t ht]; exact hdeep)
    · rcases crawl_level s.q [] s δ (by simp) hδ (by simp) with ⟨n, hn | hn⟩
      · exact ⟨n, hn⟩
      · rcases ih (δ + 1) (crawlRun env cfg n s) hn (by omega) with ⟨m, hm⟩
        refine ⟨n + m, ?_⟩
        rw [crawlRun_add]
        exact hm

theorem crawl_terminates (env : CrawlEnv) (cfg : CrawlConfig) (seed : Str) :
    ∃ n, crawlDone cfg (crawlRun env cfg n (initState seed)) := by
  refine crawl_countdown (cfg.maxDepth + 1) 0 (initState seed) ?_ (by omega)
  intro t ht
  rcases List.mem_singleton.mp ht with rfl
  rfl

/-- Claim C1: for every crawl (any remote world, any clamped limits, any
seed), at every point of the run the crawled counter never exceeds
maxPages, no task that passed the filter — no processed address — has
depth exceeding maxDepth, no address is processed twice (the processed
addresses are pairwise distinct, every dequeued address being checked
against and added to the seen-set before processing), and the loop
terminates: some number of iterations reaches the stop condition (empty
frontier or page cap). -/
theorem c1_crawl_invariants :
    ∀ (env : CrawlEnv) (cfg : CrawlConfig) (seed : Str) (n : Nat),
      (crawlRun env cfg n (initState seed)).crawled ≤ cfg.maxPages ∧
      (∀ t ∈ (crawlRun env cfg n (initState seed)).processed,
        t.depth ≤ cfg.maxDepth) ∧
      ((crawlRun env cfg n (initState seed)).processed.map CrawlTask.url).Nodup ∧
      (∀ t ∈ (crawlRun env cfg n (initState seed)).processed,
        t.url ∈ (crawlRun env cfg n (initState seed)).seen) ∧
      ∃ m, crawlDone cfg (crawlRun env cfg m (initState seed)) := by
  intro env cfg seed n
  have h := crawlRun_inv n (initState seed) (initState_inv env cfg seed)
  exact ⟨h.1, h.2.1, h.2.2.1, h.2.2.2.1, crawl_terminates env cfg seed⟩

/-- Claim C10: at every point of every crawl run, the counted addresses
(those that incremented crawled) are exactly the processed addresses for
which both the raw-HTML fetch and the text scrape succeeded, in order;
crawled equals their number; the politeness delay fired exactly once per
counted page (never for pages whose fetch or scrape failed) and never when
the configured delay is zero; and every processed address — including the
fetch- and scrape-failed ones — is marked seen. -/
theorem c10_crawl_counting :
    ∀ (env : CrawlEnv) (cfg : CrawlConfig) (seed : Str) (n : Nat),
      (crawlRun env cfg n (initState seed)).counted
        = ((crawlRun env cfg n (initState seed)).processed.filter (fun t =>
            (env.fetchHtml t.url).isSome && (env.scrape t.url).isSome)).map
              CrawlTask.url ∧
      (crawlRun env cfg n (initState seed)).crawled
        = (crawlRun env cfg n (initState seed)).counted.length ∧
      (crawlRun env cfg n (initState seed)).sleeps
        = (if cfg.delayMs = 0 then 0
           else (crawlRun env cfg n (initState seed)).crawled) ∧
      (∀ t ∈ (crawlRun env cfg n (initState seed)).processed,
        t.url ∈ (crawlRun env cfg n (initState seed)).seen) := by
  intro env cfg seed n
  have h := crawlRun_inv n (initState seed) (initState_inv env cfg seed)
  exact ⟨h.2.2.2.2.1, h.2.2.2.2.2.1, h.2.2.2.2.2.2.1, h.2.2.2.1⟩

/-- Claim C3 (amended): every embed/upsert step of one ingestion call uses
the same effective namespace, namely the one getIndexForNamespace computes
from the caller-supplied namespace and the PINECONE_NAMESPACE deployment
default: the caller's string when non-empty, else the deployment default
when non-empty, else the store's default partition — never a value derived
from the seed hostname.  Hostname derivation (drop www. and the final
dot-separated label, join with dashes, default docs) is performed by the
web client, which always supplies its result explicitly. -/
theorem c3_namespace :
    (∀ (env : CrawlEnv) (cfg : CrawlConfig) (seed : Str) (n : Nat),
        ∀ x ∈ (crawlRun env cfg n (initState seed)).nsUsed,
          x = effectiveNamespace cfg.callerNs cfg.envNs) ∧
    (∀ (s : Str) (envNs : Option Str), s ≠ [] →
        effectiveNamespace (some s) envNs = some s) ∧
    (∀ envNs : Option Str, effectiveNamespace (some []) envNs = none) ∧
    (∀ s : Str, s ≠ [] → effectiveNamespace none (some s) = some s) ∧
    effectiveNamespace none (some []) = none ∧
    effectiveNamespace none none = none ∧
    computeNamespace "https://nextjs.org/docs".data = "nextjs".data := by
  refine ⟨?_, ?_, fun _ => rfl, ?_, rfl, rfl, by decide⟩
  · intro env cfg seed n
    exact (crawlRun_inv n (initState seed) (initState_inv env cfg seed)).2.2.2.2.2.2.2
  · intro s envNs hs
    cases s with
    | nil => exact absurd rfl hs
    | cons c t => rfl
  · intro s hs
    cases s with
    | nil => exact absurd rfl hs
    | cons c t => rfl

/-- Claim C3, counterexample to the claim as stated: with the caller
supplying no namespace, the namespace under which vectors are persisted is
the PINECONE_NAMESPACE deployment default — two deployments with
different defaults persist the same seed's vectors under different
namespaces — and it is not the hostname-derived value (nextjs for seed
https://nextjs.org/docs); so an ingestion call's namespace is neither
always caller-supplied nor, in its absence, derived from the seed
hostname. -/
theorem c3_counterexample :
    effectiveNamespace none (some "alpha".data) = some "alpha".data ∧
    effectiveNamespace none (some "beta".data) = some "beta".data ∧
    (some "alpha".data : Option Str) ≠ some "beta".data ∧
    computeNamespace "https://nextjs.org/docs".data = "nextjs".data ∧
    effectiveNamespace none (some "alpha".data)
      ≠ some (computeNamespace "https://nextjs.org/docs".data) := by
  refine ⟨rfl, rfl, by decide, by decide, by decide⟩

/-- Claim C3, witness: the amended theorem applied at concrete namespace
inputs. -/
theorem c3_witness :
    effectiveNamespace (some "nextjs".data) none = some "nextjs".data ∧
    effectiveNamespace none (some "docs".data) = some "docs".data := by
  exact ⟨c3_namespace.2.1 ("nextjs".data) none (by decide),
    c3_namespace.2.2.2.1 ("docs".data) (by decide)⟩

end DocChat

